import Mathlib

/-!
The SOAP envelope encoder of gosoap, `encode.go`.

A shallow embedding of `encode.go`.  The package-level variables `soapPrefix` and
`customEnvelopeAttrs` become an explicit `Config` value that is threaded through every
function reading them.  The receiver `tokens *tokenData` becomes a token list that each
method takes and returns; `append(tokens.data, t)` is `tokens ++ [t]`.  A run-time panic
(a failed unchecked type assertion, an index out of range) is the result `none`; an
`error` return value is `Except.error`.
-/

namespace Gosoap

/-! ## XML tokens (`encoding/xml`) -/

/-- The type `xml.Name`. -/
structure Name where
  Space : String
  Local : String
deriving DecidableEq, Repr

/-- The type `xml.Attr`. -/
structure Attr where
  Name : Name
  Value : String
deriving DecidableEq, Repr

/-- The tokens the encoder produces: `xml.StartElement`, `xml.EndElement`, `xml.CharData`. -/
inductive Token
  | StartElement (Name : Name) (Attr : List Attr)
  | EndElement (Name : Name)
  | CharData (content : String)
deriving DecidableEq, Repr

/-- The field `data []xml.Token` of `tokenData`, the only field of that struct. -/
abbrev tokenData := List Token

/-! ## Dynamic values (`interface{}` as seen through `reflect`) -/

/-- A key of a Go map as `reflect` sees it: of kind String (`text`), or of any other
kind, recorded by the name of its type. -/
inductive MapKey
  | text (s : String)
  | other (typeName : String)
deriving DecidableEq, Repr

/-- The method `reflect.Value.String` on a map key: the string itself for a key of kind
String, and the text `<T Value>` for a key of another type `T` (it does not panic). -/
def MapKey.String : MapKey → String
  | .text s => s
  | .other typeName => "<" ++ typeName ++ " Value>"

/-- A value passed as `interface{}`, classified the way `recursiveEncode` inspects it:
by `reflect.Kind`, and for structs and array labels by dynamic type.  Values are finite
trees.  A map or a custom attribute set is the list of its entries in the order in which
`range` / `MapKeys` visits them in the run at hand; every map is visited once per run.

* `namespaceParam`: a struct whose dynamic type is `NamespaceParam`;
* `otherStruct`: kind Struct, of any other type;
* `map`: kind Map; `slice`: kind Slice; `array`: kind Array, with its elements;
* `string`: a value of type `string`; `definedString`: kind String, of a defined type
  other than `string` (the assertion `.(string)` fails on it);
* `int`: kind Int;
* `bool`, `float`, `nil`, `otherKind`: the remaining kinds (Bool, Float32/64, the nil
  interface, and pointers, sized integers, functions, channels ...). -/
inductive Value
  | namespaceParam (Namespace Name : String) (Value : Value)
  | otherStruct
  | map (entries : List (MapKey × Value))
  | slice (elems : List Value)
  | array (elems : List Value)
  | string (s : String)
  | definedString (s : String)
  | int (n : Int)
  | bool (b : Bool)
  | float
  | nil
  | otherKind

/-- The function `strconv.Itoa`: the base-10 text of a whole number. -/
def Itoa (n : Int) : String :=
  if n < 0 then "-" ++ Nat.repr n.natAbs else Nat.repr n.natAbs

/-! ## Process-wide configuration -/

/-- The package-level variables `soapPrefix` and `customEnvelopeAttrs`
(`none` is the nil map). -/
structure Config where
  soapPrefix : String
  customEnvelopeAttrs : Option (List (String × String))
deriving DecidableEq, Repr

/-- The initial values of the package-level variables. -/
def Config.initial : Config := ⟨"soap", none⟩

/-- The function `SetCustomEnvelope`; `attrs = none` is a nil map. -/
def SetCustomEnvelope (c : Config) (pfx : String) (attrs : Option (List (String × String))) :
    Config :=
  let c : Config := ⟨pfx, c.customEnvelopeAttrs⟩
  match attrs with
  | some a => ⟨c.soapPrefix, some a⟩
  | none => c

/-! ## The recursive value encoder -/

mutual
/-- The method `tokenData.recursiveEncode`.  The result `none` is the panic of the
unchecked assertion `label.(string)`. -/
def recursiveEncode (tokens : tokenData) : Value → Option tokenData
  | .namespaceParam ns nm v =>
    let t : Name := ⟨"", ns ++ ":" ++ nm⟩
    match recursiveEncode (tokens ++ [Token.StartElement t []]) v with
    | none => none
    | some tokens => some (tokens ++ [Token.EndElement t])
  | .otherStruct => some tokens
  | .map entries => encodeMapKeys tokens entries
  | .slice elems => encodeIndices tokens elems
  | .array [label, content] =>
    match label with
    | .string s =>
      let t : Name := ⟨"", s⟩
      match recursiveEncode (tokens ++ [Token.StartElement t []]) content with
      | none => none
      | some tokens => some (tokens ++ [Token.EndElement t])
    | _ => none
  | .array _ => some tokens
  | .string s => some (tokens ++ [Token.CharData s])
  | .definedString s => some (tokens ++ [Token.CharData s])
  | .int n => some (tokens ++ [Token.CharData (Itoa n)])
  | .bool _ => some tokens
  | .float => some tokens
  | .nil => some tokens
  | .otherKind => some tokens
/-- The loop `for _, key := range v.MapKeys()` of the Map case. -/
def encodeMapKeys (tokens : tokenData) : List (MapKey × Value) → Option tokenData
  | [] => some tokens
  | (key, value) :: rest =>
    let t : Name := ⟨"", key.String⟩
    match recursiveEncode (tokens ++ [Token.StartElement t []]) value with
    | none => none
    | some tokens => encodeMapKeys (tokens ++ [Token.EndElement t]) rest
/-- The loop `for i := 0; i < v.Len(); i++` of the Slice case. -/
def encodeIndices (tokens : tokenData) : List Value → Option tokenData
  | [] => some tokens
  | elem :: rest =>
    match recursiveEncode tokens elem with
    | none => none
    | some tokens => encodeIndices tokens rest
end

/-! ## Envelope, header and body assemblers -/

/-- The method `tokenData.startEnvelope`. -/
def startEnvelope (cfg : Config) (tokens : tokenData) : tokenData :=
  let name : Name := ⟨"", cfg.soapPrefix ++ ":Envelope"⟩
  match cfg.customEnvelopeAttrs with
  | none =>
    tokens ++ [Token.StartElement name
      [⟨⟨"", "xmlns:xsi"⟩, "http://www.w3.org/2001/XMLSchema-instance"⟩,
       ⟨⟨"", "xmlns:xsd"⟩, "http://www.w3.org/2001/XMLSchema"⟩,
       ⟨⟨"", "xmlns:soap"⟩, "http://schemas.xmlsoap.org/soap/envelope/"⟩]]
  | some attrs =>
    tokens ++ [Token.StartElement name (attrs.map fun kv => ⟨⟨"", kv.1⟩, kv.2⟩)]

/-- The method `tokenData.endEnvelope`. -/
def endEnvelope (cfg : Config) (tokens : tokenData) : tokenData :=
  tokens ++ [Token.EndElement ⟨"", cfg.soapPrefix ++ ":Envelope"⟩]

/-- The method `tokenData.startHeader`. -/
def startHeader (cfg : Config) (tokens : tokenData) (m n : String) : tokenData :=
  let h : Token := Token.StartElement ⟨"", cfg.soapPrefix ++ ":Header"⟩ []
  if m = "" ∨ n = "" then
    tokens ++ [h]
  else
    let r : Token := Token.StartElement ⟨"", m⟩ [⟨⟨"", "xmlns"⟩, n⟩]
    tokens ++ [h, r]

/-- The method `tokenData.endHeader`. -/
def endHeader (cfg : Config) (tokens : tokenData) (m : String) : tokenData :=
  let h : Token := Token.EndElement ⟨"", cfg.soapPrefix ++ ":Header"⟩
  if m = "" then
    tokens ++ [h]
  else
    let r : Token := Token.EndElement ⟨"", m⟩
    tokens ++ [r, h]

/-- The method `tokenData.startBody`; `Except.error` is the returned `error`. -/
def startBody (cfg : Config) (tokens : tokenData) (m n pn : String) : Except String tokenData :=
  let b : Token := Token.StartElement ⟨"", cfg.soapPrefix ++ ":Body"⟩ []
  if m = "" ∨ n = "" then
    Except.error "method or namespace is empty"
  else
    let r : Token :=
      if pn ≠ "" then
        Token.StartElement ⟨"", pn ++ ":" ++ m⟩ []
      else
        Token.StartElement ⟨"", m⟩ [⟨⟨"", "xmlns"⟩, n⟩]
    Except.ok (tokens ++ [b, r])

/-- The method `tokenData.endBody`. -/
def endBody (cfg : Config) (tokens : tokenData) (m np : String) : tokenData :=
  let b : Token := Token.EndElement ⟨"", cfg.soapPrefix ++ ":Body"⟩
  let loc : String := if np ≠ "" then np ++ ":" ++ m else m
  let r : Token := Token.EndElement ⟨"", loc⟩
  tokens ++ [r, b]

/-! ## The envelope driver -/

/-- Modelled from the spec: the schema type behind `XsdSchema[0]` is declared outside
`encode.go`; of it the encoder reads the target-namespace string only. -/
structure xsdSchema where
  TargetNamespace : String
deriving DecidableEq, Repr

/-- Modelled from the spec: the element type of `Definitions.Types`, declared outside
`encode.go`; it exposes an ordered list of XML schema declarations. -/
structure wsdlTypes where
  XsdSchema : List xsdSchema
deriving DecidableEq, Repr

/-- Modelled from the spec: the type behind `Client.Definitions`, declared outside
`encode.go`.  `Types = none` is the nil slice, `some []` a slice that is present and
empty. -/
structure wsdlDefinitions where
  Types : Option (List wsdlTypes)
deriving DecidableEq, Repr

/-- Modelled from the spec: the type of `Client.HeaderParams`, declared outside
`encode.go`: a mapping from text keys to dynamic values (`len` applies to it and
`recursiveEncode` receives it as a value of kind Map). -/
abbrev HeaderParams := List (String × Value)

/-- The conversion of the header parameters to `interface{}` at the call
`tokens.recursiveEncode(p.Client.HeaderParams)`. -/
def HeaderParams.toValue (hp : HeaderParams) : Value :=
  Value.map (hp.map fun kv => (MapKey.text kv.1, kv.2))

/-- Modelled from the spec: the fields of `Client` that `MarshalXML` reads, declared
outside `encode.go`.  `Definitions = none` is the nil pointer. -/
structure Client where
  Definitions : Option wsdlDefinitions
  HeaderParams : HeaderParams
  HeaderName : String

/-- Modelled from the spec: the fields of `Request` that `MarshalXML` reads, declared
outside `encode.go`.  `Namespace` is the optional prefix namespace. -/
structure Request where
  Method : String
  Namespace : String
  Params : Value

/-- Modelled from the spec: the receiver type `process`, declared outside `encode.go`:
one Client and one Request. -/
structure process where
  Client : Client
  Request : Request

/-- Lines 32-35 of `MarshalXML`: the namespace read from `Types[0].XsdSchema[0]` when
`Types` is not nil.  The result `none` is an index-out-of-range panic. -/
def deriveNamespace (defs : wsdlDefinitions) : Option String :=
  match defs.Types with
  | none => some ""
  | some types =>
    match types[0]? with
    | none => none
    | some t =>
      match t.XsdSchema[0]? with
      | none => none
      | some s => some s.TargetNamespace

/-- The state of `MarshalXML` when it stops building tokens: the error it returns at
that point (`none` when the list is complete) and the contents of `tokens.data`. -/
structure BuildResult where
  err : Option String
  data : tokenData
deriving DecidableEq, Repr

/-- Lines 25-55 of `MarshalXML`: everything before the loop that writes the tokens.
The result `none` is a panic. -/
def buildTokens (cfg : Config) (p : process) : Option BuildResult :=
  let tokens : tokenData := []
  match p.Client.Definitions with
  | none => some ⟨some "definitions is nil", tokens⟩
  | some defs =>
    match deriveNamespace defs with
    | none => none
    | some ns =>
      let tokens := startEnvelope cfg tokens
      let withHeader : Option tokenData :=
        if p.Client.HeaderParams.length > 0 then
          match recursiveEncode (startHeader cfg tokens p.Client.HeaderName ns)
              p.Client.HeaderParams.toValue with
          | none => none
          | some tokens => some (endHeader cfg tokens p.Client.HeaderName)
        else
          some tokens
      match withHeader with
      | none => none
      | some tokens =>
        match startBody cfg tokens p.Request.Method ns p.Request.Namespace with
        | Except.error err => some ⟨some err, tokens⟩
        | Except.ok tokens =>
          match recursiveEncode tokens p.Request.Params with
          | none => none
          | some tokens =>
            some ⟨none, endEnvelope cfg (endBody cfg tokens p.Request.Method p.Request.Namespace)⟩

/-- The `*xml.Encoder` as far as `MarshalXML` uses it.  `EncodeToken written t` is the
error, if any, with which the encoder answers token `t` after it was handed the tokens
`written`; `Flush written` is the error, if any, of the final flush. -/
structure Encoder where
  EncodeToken : List Token → Token → Option String
  Flush : List Token → Option String

/-- The loop `for _, t := range tokens.data` (lines 57-62): the tokens handed to the
encoder so far, then the tokens still to write.  Returns every token handed to the
encoder and the error that stopped the loop, if any. -/
def writeTokens (e : Encoder) : List Token → List Token → List Token × Option String
  | written, [] => (written, none)
  | written, t :: rest =>
    match e.EncodeToken written t with
    | some err => (written ++ [t], some err)
    | none => writeTokens e (written ++ [t]) rest

/-- What one call of `MarshalXML` leaves behind: the returned error (`none` is nil),
the token list in memory and the tokens handed to the encoder. -/
structure MarshalResult where
  err : Option String
  data : tokenData
  written : List Token
deriving DecidableEq, Repr

/-- The method `process.MarshalXML`.  The result `none` is a panic. -/
def MarshalXML (cfg : Config) (p : process) (e : Encoder) : Option MarshalResult :=
  match buildTokens cfg p with
  | none => none
  | some ⟨some err, data⟩ => some ⟨some err, data, []⟩
  | some ⟨none, data⟩ =>
    match writeTokens e [] data with
    | (written, some err) => some ⟨some err, data, written⟩
    | (written, none) => some ⟨e.Flush written, data, written⟩

/-! ## Well-formedness of a token list -/

/-- The number of start-tag tokens of a list. -/
def startCount : List Token → Nat
  | [] => 0
  | Token.StartElement _ _ :: ts => startCount ts + 1
  | _ :: ts => startCount ts

/-- The number of end-tag tokens of a list. -/
def endCount : List Token → Nat
  | [] => 0
  | Token.EndElement _ :: ts => endCount ts + 1
  | _ :: ts => endCount ts

/-- The stack-based replay of a token list: a start-tag pushes its name, an end-tag pops
a name that must equal its own.  The result `none` is an underflow or a mismatch,
otherwise the stack left at the end. -/
def replay : List Name → List Token → Option (List Name)
  | stack, [] => some stack
  | stack, Token.StartElement n _ :: ts => replay (n :: stack) ts
  | stack, Token.CharData _ :: ts => replay stack ts
  | [], Token.EndElement _ :: _ => none
  | top :: stack, Token.EndElement n :: ts => if top = n then replay stack ts else none

/-! ## Vocabulary of the statements -/

/-- The frame property of one value: the tokens already in the list are kept, and what
is appended does not depend on them. -/
def Framed (v : Value) : Prop :=
  ∀ ts : tokenData, recursiveEncode ts v = (recursiveEncode [] v).map fun enc => ts ++ enc

/-- A run of tokens is balanced when it has as many start-tags as end-tags and the
replay of it, from any stack and before any continuation, returns to that stack. -/
def Balanced (enc : List Token) : Prop :=
  startCount enc = endCount enc ∧
    ∀ (stack : List Name) (rest : List Token), replay stack (enc ++ rest) = replay stack rest

/-- The local name of the method element, as `startBody` and `endBody` both compute it. -/
def methodLocal (m pn : String) : String :=
  if pn ≠ "" then pn ++ ":" ++ m else m

/-- The attributes of the method start-tag written by `startBody`. -/
def methodAttrs (n pn : String) : List Attr :=
  if pn ≠ "" then [] else [⟨⟨"", "xmlns"⟩, n⟩]

/-- Lines 38-44 of `MarshalXML` run on an empty list: the header section, empty when
there are no header parameters; `none` when encoding them panics. -/
def headerSection (cfg : Config) (p : process) (ns : String) : Option tokenData :=
  if p.Client.HeaderParams.length > 0 then
    (recursiveEncode [] p.Client.HeaderParams.toValue).map fun hs =>
      startHeader cfg [] p.Client.HeaderName ns ++ hs ++ endHeader cfg [] p.Client.HeaderName
  else
    some []

/-- The attributes `startEnvelope` gives the Envelope start-tag. -/
def envelopeAttrs (cfg : Config) : List Attr :=
  match cfg.customEnvelopeAttrs with
  | none =>
    [⟨⟨"", "xmlns:xsi"⟩, "http://www.w3.org/2001/XMLSchema-instance"⟩,
     ⟨⟨"", "xmlns:xsd"⟩, "http://www.w3.org/2001/XMLSchema"⟩,
     ⟨⟨"", "xmlns:soap"⟩, "http://schemas.xmlsoap.org/soap/envelope/"⟩]
  | some attrs => attrs.map fun kv => ⟨⟨"", kv.1⟩, kv.2⟩

/-- Whether a token is a start-tag with the given local name and no namespace URI. -/
def isStartNamed (l : String) : Token → Bool
  | Token.StartElement n _ => decide (n = ⟨"", l⟩)
  | _ => false

/-- Whether a token is an end-tag with the given local name and no namespace URI. -/
def isEndNamed (l : String) : Token → Bool
  | Token.EndElement n => decide (n = ⟨"", l⟩)
  | _ => false

/-- The number of start-tags of a list that carry the given name. -/
def startsNamed (l : String) (ts : List Token) : Nat :=
  ts.countP (isStartNamed l)

/-- The number of end-tags of a list that carry the given name. -/
def endsNamed (l : String) (ts : List Token) : Nat :=
  ts.countP (isEndNamed l)

/-- The start-tag of the named request header that `startHeader` adds inside `Header`:
present when both the header name and the namespace are given. -/
def headerNameStart (m n : String) : List Token :=
  if m = "" ∨ n = "" then [] else [Token.StartElement ⟨"", m⟩ [⟨⟨"", "xmlns"⟩, n⟩]]

/-- The end-tag of the named request header that `endHeader` adds before the end of
`Header`: present when the header name is given. -/
def headerNameEnd (m : String) : List Token :=
  if m = "" then [] else [Token.EndElement ⟨"", m⟩]

/-- An encoder that accepts every token and flushes without error. -/
def acceptAll : Encoder := ⟨fun _ _ => none, fun _ => none⟩

/-- A schema set declaring one schema with target namespace `urn:t`. -/
def sampleDefinitions : wsdlDefinitions := ⟨some [⟨[⟨"urn:t"⟩]⟩]⟩

/-- A request `Ping` with one header parameter and one body parameter. -/
def sampleProcess : process :=
  ⟨⟨some sampleDefinitions, [("Token", Value.string "abc")], "Auth"⟩,
    ⟨"Ping", "", Value.map [(MapKey.text "A", Value.int 7)]⟩⟩

/-- A request whose only header parameter has the key `soap:Header`. -/
def headerKeyProcess : process :=
  ⟨⟨some sampleDefinitions, [("soap:Header", Value.string "x")], ""⟩,
    ⟨"Ping", "", Value.nil⟩⟩

/-- A request with an empty method name whose header parameter `k` holds the array
`[2]interface{}{1, "x"}`; its schema set declares no types (`Types` is nil). -/
def badLabelProcess : process :=
  ⟨⟨some ⟨none⟩, [("k", Value.array [Value.int 1, Value.string "x"])], ""⟩,
    ⟨"", "", Value.nil⟩⟩

/-- A request with an empty method name whose schema set has a `Types` slice that is
present and empty. -/
def emptyTypesProcess : process :=
  ⟨⟨some ⟨some []⟩, [], ""⟩, ⟨"", "", Value.nil⟩⟩

/-- A request `Ping` with prefix namespace `tns`, a text body and no header parameter. -/
def plainProcess : process :=
  ⟨⟨some sampleDefinitions, [], "Auth"⟩, ⟨"Ping", "tns", Value.string "hi"⟩⟩

/-- The token list of `sampleProcess` under the initial configuration. -/
def sampleTokens : tokenData :=
  [Token.StartElement ⟨"", "soap:Envelope"⟩
      [⟨⟨"", "xmlns:xsi"⟩, "http://www.w3.org/2001/XMLSchema-instance"⟩,
       ⟨⟨"", "xmlns:xsd"⟩, "http://www.w3.org/2001/XMLSchema"⟩,
       ⟨⟨"", "xmlns:soap"⟩, "http://schemas.xmlsoap.org/soap/envelope/"⟩],
    Token.StartElement ⟨"", "soap:Header"⟩ [],
    Token.StartElement ⟨"", "Auth"⟩ [⟨⟨"", "xmlns"⟩, "urn:t"⟩],
    Token.StartElement ⟨"", "Token"⟩ [],
    Token.CharData "abc",
    Token.EndElement ⟨"", "Token"⟩,
    Token.EndElement ⟨"", "Auth"⟩,
    Token.EndElement ⟨"", "soap:Header"⟩,
    Token.StartElement ⟨"", "soap:Body"⟩ [],
    Token.StartElement ⟨"", "Ping"⟩ [⟨⟨"", "xmlns"⟩, "urn:t"⟩],
    Token.StartElement ⟨"", "A"⟩ [],
    Token.CharData "7",
    Token.EndElement ⟨"", "A"⟩,
    Token.EndElement ⟨"", "Ping"⟩,
    Token.EndElement ⟨"", "soap:Body"⟩,
    Token.EndElement ⟨"", "soap:Envelope"⟩]

/-- The token list of `plainProcess` under the initial configuration. -/
def plainTokens : tokenData :=
  [Token.StartElement ⟨"", "soap:Envelope"⟩
      [⟨⟨"", "xmlns:xsi"⟩, "http://www.w3.org/2001/XMLSchema-instance"⟩,
       ⟨⟨"", "xmlns:xsd"⟩, "http://www.w3.org/2001/XMLSchema"⟩,
       ⟨⟨"", "xmlns:soap"⟩, "http://schemas.xmlsoap.org/soap/envelope/"⟩],
    Token.StartElement ⟨"", "soap:Body"⟩ [],
    Token.StartElement ⟨"", "tns:Ping"⟩ [],
    Token.CharData "hi",
    Token.EndElement ⟨"", "tns:Ping"⟩,
    Token.EndElement ⟨"", "soap:Body"⟩,
    Token.EndElement ⟨"", "soap:Envelope"⟩]

/-- A request `Ping` whose schema set declares no types (`Types` is nil) and whose header
parameter `k` holds the array `[2]interface{}{1, "x"}`. -/
def noTypesProcess : process :=
  ⟨⟨some ⟨none⟩, [("k", Value.array [Value.int 1, Value.string "x"])], ""⟩,
    ⟨"Ping", "tns", Value.string "hi"⟩⟩

/-- A request `Ping` without header parameters whose schema set has a `Types` slice
that is present and holds no element. -/
def noElementProcess : process :=
  ⟨⟨some ⟨some []⟩, [], ""⟩, ⟨"Ping", "tns", Value.string "hi"⟩⟩

/-- A request `Ping` without header parameters whose body parameter has the key
`soap:Header`. -/
def bodyKeyProcess : process :=
  ⟨⟨some sampleDefinitions, [], ""⟩,
    ⟨"Ping", "", Value.map [(MapKey.text "soap:Header", Value.string "x")]⟩⟩

/-- A request without header parameters whose method is `Header` and whose prefix
namespace is `soap`. -/
def headerMethodProcess : process :=
  ⟨⟨some sampleDefinitions, [], ""⟩, ⟨"Header", "soap", Value.nil⟩⟩

/-! ## Structure of the recursive encoder -/

/-- Induction over dynamic values, with the hypothesis available for every entry of a
map and every element of a slice or array. -/
theorem Value.induction {P : Value → Prop}
    (hns : ∀ a b v, P v → P (.namespaceParam a b v))
    (hmap : ∀ es : List (MapKey × Value), (∀ e ∈ es, P e.2) → P (.map es))
    (hslice : ∀ vs : List Value, (∀ v ∈ vs, P v) → P (.slice vs))
    (harray : ∀ vs : List Value, (∀ v ∈ vs, P v) → P (.array vs))
    (hstruct : P .otherStruct) (hstring : ∀ s, P (.string s))
    (hdefined : ∀ s, P (.definedString s)) (hint : ∀ n, P (.int n))
    (hbool : ∀ b, P (.bool b)) (hfloat : P .float) (hnil : P .nil)
    (hother : P .otherKind) : ∀ v, P v := by
  intro v
  refine @Value.rec P (fun es => ∀ e ∈ es, P e.2) (fun vs => ∀ v ∈ vs, P v) (fun e => P e.2)
    hns hstruct hmap hslice harray hstring hdefined hint hbool hfloat hnil hother
    ?_ ?_ ?_ ?_ ?_ v
  · intro e he; cases he
  · intro hd tl h1 h2 e he
    rcases List.mem_cons.1 he with rfl | h
    · exact h1
    · exact h2 e h
  · intro e he; cases he
  · intro hd tl h1 h2 e he
    rcases List.mem_cons.1 he with rfl | h
    · exact h1
    · exact h2 e h
  · intro k v h; exact h

theorem encodeIndices_frame (vs : List Value) (h : ∀ v ∈ vs, Framed v) (ts : tokenData) :
    encodeIndices ts vs = (encodeIndices [] vs).map fun enc => ts ++ enc := by
  induction vs generalizing ts with
  | nil => simp [encodeIndices]
  | cons v rest ih =>
    have hv := h v (List.mem_cons_self _ _)
    have ihr := ih (fun w hw => h w (List.mem_cons_of_mem _ hw))
    rw [encodeIndices, encodeIndices, hv ts]
    cases hr : recursiveEncode [] v with
    | none => simp
    | some enc =>
      simp only [Option.map_some']
      rw [ihr (ts ++ enc), ihr enc]
      cases encodeIndices [] rest <;> simp

theorem encodeMapKeys_frame (es : List (MapKey × Value)) (h : ∀ e ∈ es, Framed e.2)
    (ts : tokenData) :
    encodeMapKeys ts es = (encodeMapKeys [] es).map fun enc => ts ++ enc := by
  induction es generalizing ts with
  | nil => simp [encodeMapKeys]
  | cons e rest ih =>
    obtain ⟨k, v⟩ := e
    have hv : Framed v := h (k, v) (List.mem_cons_self _ _)
    have ihr := ih (fun w hw => h w (List.mem_cons_of_mem _ hw))
    rw [encodeMapKeys, encodeMapKeys, hv (ts ++ _), hv ([] ++ _)]
    cases hr : recursiveEncode [] v with
    | none => simp
    | some enc =>
      simp only [Option.map_some']
      rw [ihr (ts ++ _ ++ enc ++ _), ihr ([] ++ _ ++ enc ++ _)]
      cases encodeMapKeys [] rest <;> simp

/-- Every value has the frame property. -/
theorem recursiveEncode_frame (v : Value) (ts : tokenData) :
    recursiveEncode ts v = (recursiveEncode [] v).map fun enc => ts ++ enc := by
  revert ts
  induction v using Value.induction with
  | hns a b v ih =>
    intro ts
    rw [recursiveEncode, recursiveEncode, ih (ts ++ _), ih ([] ++ _)]
    cases recursiveEncode [] v <;> simp
  | hmap es ih =>
    intro ts
    rw [recursiveEncode, recursiveEncode]
    exact encodeMapKeys_frame es ih ts
  | hslice vs ih =>
    intro ts
    rw [recursiveEncode, recursiveEncode]
    exact encodeIndices_frame vs ih ts
  | harray vs ih =>
    intro ts
    match vs, ih with
    | [], _ => simp [recursiveEncode]
    | [_], _ => simp [recursiveEncode]
    | _ :: _ :: _ :: _, _ => simp [recursiveEncode]
    | [label, content], ih =>
      have hc : Framed content := ih content (by simp)
      cases label <;> simp only [recursiveEncode, Option.map_none']
      rw [hc (ts ++ _), hc ([] ++ _)]
      cases recursiveEncode [] content <;> simp
  | hstruct => intro ts; simp [recursiveEncode]
  | hstring s => intro ts; simp [recursiveEncode]
  | hdefined s => intro ts; simp [recursiveEncode]
  | hint n => intro ts; simp [recursiveEncode]
  | hbool b => intro ts; simp [recursiveEncode]
  | hfloat => intro ts; simp [recursiveEncode]
  | hnil => intro ts; simp [recursiveEncode]
  | hother => intro ts; simp [recursiveEncode]

/-- The tokens of a namespace wrapper: its tag pair around the tokens of the inner
value. -/
theorem encode_namespaceParam (ts : tokenData) (ns nm : String) (v : Value) :
    recursiveEncode ts (.namespaceParam ns nm v) =
      (recursiveEncode [] v).map fun enc =>
        ts ++ [Token.StartElement ⟨"", ns ++ ":" ++ nm⟩ []] ++ enc ++
          [Token.EndElement ⟨"", ns ++ ":" ++ nm⟩] := by
  rw [recursiveEncode, recursiveEncode_frame v (ts ++ _)]
  cases recursiveEncode [] v <;> simp

/-- The tokens of an array of length two with a label of type `string`. -/
theorem encode_pair (ts : tokenData) (s : String) (content : Value) :
    recursiveEncode ts (.array [.string s, content]) =
      (recursiveEncode [] content).map fun enc =>
        ts ++ [Token.StartElement ⟨"", s⟩ []] ++ enc ++ [Token.EndElement ⟨"", s⟩] := by
  rw [recursiveEncode, recursiveEncode_frame content (ts ++ _)]
  cases recursiveEncode [] content <;> simp

/-- One round of the Map loop. -/
theorem encodeMapKeys_cons (ts : tokenData) (k : MapKey) (v : Value)
    (rest : List (MapKey × Value)) :
    encodeMapKeys ts ((k, v) :: rest) =
      (recursiveEncode [] v).bind fun enc =>
        (encodeMapKeys [] rest).map fun more =>
          ts ++ [Token.StartElement ⟨"", k.String⟩ []] ++ enc ++
            [Token.EndElement ⟨"", k.String⟩] ++ more := by
  rw [encodeMapKeys, recursiveEncode_frame v (ts ++ _)]
  cases recursiveEncode [] v with
  | none => simp
  | some enc =>
    simp only [Option.map_some', Option.some_bind]
    rw [encodeMapKeys_frame rest (fun e _ => recursiveEncode_frame e.2)]

/-- One round of the Slice loop. -/
theorem encodeIndices_cons (ts : tokenData) (v : Value) (rest : List Value) :
    encodeIndices ts (v :: rest) =
      (recursiveEncode [] v).bind fun enc =>
        (encodeIndices [] rest).map fun more => ts ++ enc ++ more := by
  rw [encodeIndices, recursiveEncode_frame v ts]
  cases recursiveEncode [] v with
  | none => simp
  | some enc =>
    simp only [Option.map_some', Option.some_bind]
    rw [encodeIndices_frame rest (fun e _ => recursiveEncode_frame e)]

/-! ## Balanced token lists -/

theorem startCount_append (xs ys : List Token) :
    startCount (xs ++ ys) = startCount xs + startCount ys := by
  induction xs with
  | nil => simp [startCount]
  | cons t ts ih => cases t <;> simp [startCount, ih]; omega

theorem endCount_append (xs ys : List Token) :
    endCount (xs ++ ys) = endCount xs + endCount ys := by
  induction xs with
  | nil => simp [endCount]
  | cons t ts ih => cases t <;> simp [endCount, ih]; omega

theorem Balanced.nil : Balanced [] := by
  simp [Balanced, startCount, endCount]

theorem Balanced.append {xs ys : List Token} (hx : Balanced xs) (hy : Balanced ys) :
    Balanced (xs ++ ys) := by
  refine ⟨?_, ?_⟩
  · rw [startCount_append, endCount_append, hx.1, hy.1]
  · intro stack rest
    rw [List.append_assoc, hx.2, hy.2]

theorem Balanced.charData (s : String) : Balanced [Token.CharData s] := by
  refine ⟨by simp [startCount, endCount], ?_⟩
  intro stack rest
  simp [replay]

/-- A balanced run inside a start-tag and the end-tag of the same name is balanced. -/
theorem Balanced.wrap (n : Name) (attrs : List Attr) {enc : List Token} (h : Balanced enc) :
    Balanced ([Token.StartElement n attrs] ++ enc ++ [Token.EndElement n]) := by
  refine ⟨?_, ?_⟩
  · rw [startCount_append, startCount_append, endCount_append, endCount_append, h.1]
    simp [startCount, endCount]
    omega
  · intro stack rest
    simp only [List.singleton_append, List.cons_append, List.append_assoc, replay,
      List.nil_append]
    rw [h.2]
    simp [replay]

theorem encodeIndices_balanced (vs : List Value)
    (h : ∀ v ∈ vs, ∀ enc, recursiveEncode [] v = some enc → Balanced enc) :
    ∀ enc, encodeIndices [] vs = some enc → Balanced enc := by
  induction vs with
  | nil =>
    intro enc he
    simp [encodeIndices] at he
    subst he
    exact Balanced.nil
  | cons v rest ih =>
    intro enc he
    rw [encodeIndices_cons] at he
    cases hv : recursiveEncode [] v with
    | none => simp [hv] at he
    | some e1 =>
      cases hr : encodeIndices [] rest with
      | none => simp [hv, hr] at he
      | some e2 =>
        simp [hv, hr] at he
        subst he
        exact (h v (List.mem_cons_self _ _) e1 hv).append
          (ih (fun w hw => h w (List.mem_cons_of_mem _ hw)) e2 hr)

theorem encodeMapKeys_balanced (es : List (MapKey × Value))
    (h : ∀ e ∈ es, ∀ enc, recursiveEncode [] e.2 = some enc → Balanced enc) :
    ∀ enc, encodeMapKeys [] es = some enc → Balanced enc := by
  induction es with
  | nil =>
    intro enc he
    simp [encodeMapKeys] at he
    subst he
    exact Balanced.nil
  | cons e rest ih =>
    obtain ⟨k, v⟩ := e
    intro enc he
    rw [encodeMapKeys_cons] at he
    cases hv : recursiveEncode [] v with
    | none => simp [hv] at he
    | some e1 =>
      cases hr : encodeMapKeys [] rest with
      | none => simp [hv, hr] at he
      | some e2 =>
        simp [hv, hr] at he
        subst he
        have h1 : Balanced e1 := h (k, v) (List.mem_cons_self _ _) e1 hv
        have h2 := ih (fun w hw => h w (List.mem_cons_of_mem _ hw)) e2 hr
        have := (Balanced.wrap ⟨"", k.String⟩ [] h1).append h2
        simpa using this

/-- Whatever `recursiveEncode` appends is balanced. -/
theorem recursiveEncode_balanced (v : Value) :
    ∀ enc, recursiveEncode [] v = some enc → Balanced enc := by
  induction v using Value.induction with
  | hns a b v ih =>
    intro enc he
    rw [encode_namespaceParam] at he
    cases hv : recursiveEncode [] v with
    | none => simp [hv] at he
    | some e1 =>
      simp [hv] at he
      subst he
      simpa using Balanced.wrap ⟨"", a ++ ":" ++ b⟩ [] (ih e1 hv)
  | hmap es ih =>
    intro enc he
    rw [recursiveEncode] at he
    exact encodeMapKeys_balanced es ih enc he
  | hslice vs ih =>
    intro enc he
    rw [recursiveEncode] at he
    exact encodeIndices_balanced vs ih enc he
  | harray vs ih =>
    intro enc he
    match vs, ih, he with
    | [], _, he => simp [recursiveEncode] at he; subst he; exact Balanced.nil
    | [_], _, he => simp [recursiveEncode] at he; subst he; exact Balanced.nil
    | _ :: _ :: _ :: _, _, he => simp [recursiveEncode] at he; subst he; exact Balanced.nil
    | [label, content], ih, he =>
      cases label with
      | string s =>
        rw [encode_pair] at he
        cases hv : recursiveEncode [] content with
        | none => simp [hv] at he
        | some e1 =>
          simp [hv] at he
          subst he
          simpa using Balanced.wrap ⟨"", s⟩ [] (ih content (by simp) e1 hv)
      | _ => simp [recursiveEncode] at he
  | hstruct => intro enc he; simp [recursiveEncode] at he; subst he; exact Balanced.nil
  | hstring s => intro enc he; simp [recursiveEncode] at he; subst he; exact Balanced.charData s
  | hdefined s => intro enc he; simp [recursiveEncode] at he; subst he; exact Balanced.charData s
  | hint n => intro enc he; simp [recursiveEncode] at he; subst he; exact Balanced.charData _
  | hbool b => intro enc he; simp [recursiveEncode] at he; subst he; exact Balanced.nil
  | hfloat => intro enc he; simp [recursiveEncode] at he; subst he; exact Balanced.nil
  | hnil => intro enc he; simp [recursiveEncode] at he; subst he; exact Balanced.nil
  | hother => intro enc he; simp [recursiveEncode] at he; subst he; exact Balanced.nil

/-! ## Structure of the assembled envelope -/

theorem startHeader_frame (cfg : Config) (ts : tokenData) (m n : String) :
    startHeader cfg ts m n = ts ++ startHeader cfg [] m n := by
  unfold startHeader
  split <;> simp

theorem endHeader_frame (cfg : Config) (ts : tokenData) (m : String) :
    endHeader cfg ts m = ts ++ endHeader cfg [] m := by
  unfold endHeader
  split <;> simp

theorem startBody_error (cfg : Config) (ts : tokenData) (m n pn : String)
    (h : m = "" ∨ n = "") :
    startBody cfg ts m n pn = Except.error "method or namespace is empty" := by
  unfold startBody
  simp [h]

theorem startBody_ok (cfg : Config) (ts : tokenData) (m n pn : String)
    (hm : m ≠ "") (hn : n ≠ "") :
    startBody cfg ts m n pn =
      Except.ok (ts ++ [Token.StartElement ⟨"", cfg.soapPrefix ++ ":Body"⟩ [],
        Token.StartElement ⟨"", methodLocal m pn⟩ (methodAttrs n pn)]) := by
  unfold startBody methodLocal methodAttrs
  by_cases hp : pn = "" <;> simp [hm, hn, hp]

theorem endBody_eq (cfg : Config) (ts : tokenData) (m np : String) :
    endBody cfg ts m np =
      ts ++ [Token.EndElement ⟨"", methodLocal m np⟩,
        Token.EndElement ⟨"", cfg.soapPrefix ++ ":Body"⟩] := by
  unfold endBody methodLocal
  simp

/-- The token list of a run that gets past `startBody`: envelope start, header section,
body and method start, body parameters, method and body end, envelope end. -/
theorem buildTokens_past_startBody (cfg : Config) (p : process) (defs : wsdlDefinitions)
    (ns : String) (hdefs : p.Client.Definitions = some defs)
    (hns : deriveNamespace defs = some ns) (hm : p.Request.Method ≠ "") (hn : ns ≠ "") :
    buildTokens cfg p =
      (headerSection cfg p ns).bind fun header =>
        (recursiveEncode [] p.Request.Params).map fun bs =>
          BuildResult.mk none
            (startEnvelope cfg [] ++ header ++
              [Token.StartElement ⟨"", cfg.soapPrefix ++ ":Body"⟩ [],
                Token.StartElement ⟨"", methodLocal p.Request.Method p.Request.Namespace⟩
                  (methodAttrs ns p.Request.Namespace)] ++ bs ++
              [Token.EndElement ⟨"", methodLocal p.Request.Method p.Request.Namespace⟩,
                Token.EndElement ⟨"", cfg.soapPrefix ++ ":Body"⟩,
                Token.EndElement ⟨"", cfg.soapPrefix ++ ":Envelope"⟩]) := by
  unfold buildTokens headerSection
  simp only [hdefs, hns]
  by_cases hlen : p.Client.HeaderParams.length > 0
  · simp only [hlen, if_true]
    rw [recursiveEncode_frame _ (startHeader _ _ _ _)]
    cases recursiveEncode [] p.Client.HeaderParams.toValue with
    | none => simp
    | some hs =>
      simp only [Option.map_some', Option.some_bind, startBody_ok _ _ _ _ _ hm hn]
      rw [recursiveEncode_frame _ (_ ++ _)]
      cases recursiveEncode [] p.Request.Params with
      | none => simp
      | some bs =>
        simp only [Option.map_some', endBody_eq, endEnvelope]
        rw [endHeader_frame, startHeader_frame]
        simp
  · simp only [hlen, if_false, Option.some_bind, startBody_ok _ _ _ _ _ hm hn]
    rw [recursiveEncode_frame _ (_ ++ _)]
    cases recursiveEncode [] p.Request.Params with
    | none => simp
    | some bs =>
      simp only [Option.map_some', endBody_eq, endEnvelope]
      simp

/-- The token list in memory after `MarshalXML` is the one its first part built. -/
theorem MarshalXML_data (cfg : Config) (p : process) (e : Encoder) :
    (MarshalXML cfg p e).map MarshalResult.data = (buildTokens cfg p).map BuildResult.data := by
  unfold MarshalXML
  cases buildTokens cfg p with
  | none => rfl
  | some r =>
    obtain ⟨err, data⟩ := r
    cases err with
    | some msg => rfl
    | none =>
      simp only [Option.map_some']
      cases hw : writeTokens e [] data with
      | mk written werr => cases werr <;> rfl

theorem startEnvelope_eq (cfg : Config) (ts : tokenData) :
    startEnvelope cfg ts =
      ts ++ [Token.StartElement ⟨"", cfg.soapPrefix ++ ":Envelope"⟩ (envelopeAttrs cfg)] := by
  unfold startEnvelope envelopeAttrs
  cases cfg.customEnvelopeAttrs <;> rfl

theorem startHeader_eq (cfg : Config) (m n : String) :
    startHeader cfg [] m n =
      Token.StartElement ⟨"", cfg.soapPrefix ++ ":Header"⟩ [] :: headerNameStart m n := by
  unfold startHeader headerNameStart
  split <;> simp

theorem endHeader_eq (cfg : Config) (m : String) :
    endHeader cfg [] m =
      headerNameEnd m ++ [Token.EndElement ⟨"", cfg.soapPrefix ++ ":Header"⟩] := by
  unfold endHeader headerNameEnd
  split <;> simp

/-- With a namespace, the header-name tags that `startHeader` and `endHeader` add
around a balanced run keep it balanced. -/
theorem headerName_balanced (m n : String) (hn : n ≠ "") {hs : List Token}
    (h : Balanced hs) : Balanced (headerNameStart m n ++ hs ++ headerNameEnd m) := by
  unfold headerNameStart headerNameEnd
  by_cases hm : m = ""
  · simpa [hm] using h
  · simpa [hm, hn] using Balanced.wrap ⟨"", m⟩ [⟨⟨"", "xmlns"⟩, n⟩] h

/-- A run that finds no `Definitions` stops with an error and an empty token list. -/
theorem buildTokens_definitions_nil (cfg : Config) (p : process)
    (hdefs : p.Client.Definitions = none) :
    buildTokens cfg p = some ⟨some "definitions is nil", []⟩ := by
  unfold buildTokens
  simp only [hdefs]

/-- A run that reaches `startBody` with an empty method or namespace stops there with
its error; the list in memory holds the envelope start and the header section. -/
theorem buildTokens_startBody_error (cfg : Config) (p : process) (defs : wsdlDefinitions)
    (ns : String) (hdefs : p.Client.Definitions = some defs)
    (hns : deriveNamespace defs = some ns) (h : p.Request.Method = "" ∨ ns = "") :
    buildTokens cfg p =
      (headerSection cfg p ns).map fun header =>
        BuildResult.mk (some "method or namespace is empty")
          (startEnvelope cfg [] ++ header) := by
  unfold buildTokens headerSection
  simp only [hdefs, hns]
  by_cases hlen : p.Client.HeaderParams.length > 0
  · simp only [hlen, if_true]
    rw [recursiveEncode_frame _ (startHeader _ _ _ _)]
    cases recursiveEncode [] p.Client.HeaderParams.toValue with
    | none => simp
    | some hs =>
      simp only [Option.map_some', startBody_error _ _ _ _ _ h]
      rw [endHeader_frame, startHeader_frame]
      simp
  · simp only [hlen, if_false, startBody_error _ _ _ _ _ h]
    simp

/-- A run that completes the token list had `Definitions`, derived a namespace, and
passed `startBody` with a method and a namespace. -/
theorem buildTokens_complete (cfg : Config) (p : process) (ts : tokenData)
    (h : buildTokens cfg p = some ⟨none, ts⟩) :
    ∃ defs ns, p.Client.Definitions = some defs ∧ deriveNamespace defs = some ns ∧
      p.Request.Method ≠ "" ∧ ns ≠ "" := by
  cases hdefs : p.Client.Definitions with
  | none =>
    rw [buildTokens_definitions_nil cfg p hdefs] at h
    simp at h
  | some defs =>
    cases hns : deriveNamespace defs with
    | none =>
      unfold buildTokens at h
      simp [hdefs, hns] at h
    | some ns =>
      refine ⟨defs, ns, rfl, hns, ?_⟩
      by_contra hne
      have hor : p.Request.Method = "" ∨ ns = "" := by
        by_contra hno
        exact hne ⟨fun hm => hno (Or.inl hm), fun hn => hno (Or.inr hn)⟩
      rw [buildTokens_startBody_error cfg p defs ns hdefs hns hor] at h
      cases hh : headerSection cfg p ns <;> simp [hh] at h

/-- The writer is not reached by a run that stops with an error while building. -/
theorem MarshalXML_build_error (cfg : Config) (p : process) (e : Encoder) (msg : String)
    (data : tokenData) (h : buildTokens cfg p = some ⟨some msg, data⟩) :
    MarshalXML cfg p e = some ⟨some msg, data, []⟩ := by
  unfold MarshalXML
  rw [h]

/-- Without `Definitions`, `MarshalXML` returns an error with no token built and none
written. -/
theorem MarshalXML_definitions_nil (cfg : Config) (p : process) (e : Encoder)
    (hdefs : p.Client.Definitions = none) :
    MarshalXML cfg p e = some ⟨some "definitions is nil", [], []⟩ :=
  MarshalXML_build_error cfg p e _ _ (buildTokens_definitions_nil cfg p hdefs)

/-- With an empty method or derived namespace, a run of `MarshalXML` that does not
panic returns the error of `startBody` and has written nothing. -/
theorem MarshalXML_startBody_error (cfg : Config) (p : process) (e : Encoder)
    (defs : wsdlDefinitions) (ns : String) (hdefs : p.Client.Definitions = some defs)
    (hns : deriveNamespace defs = some ns) (h : p.Request.Method = "" ∨ ns = "") :
    MarshalXML cfg p e =
      (headerSection cfg p ns).map fun header =>
        MarshalResult.mk (some "method or namespace is empty")
          (startEnvelope cfg [] ++ header) [] := by
  cases hh : headerSection cfg p ns with
  | none =>
    unfold MarshalXML
    rw [buildTokens_startBody_error cfg p defs ns hdefs hns h, hh]
    rfl
  | some header =>
    have hb := buildTokens_startBody_error cfg p defs ns hdefs hns h
    rw [hh] at hb
    exact MarshalXML_build_error cfg p e _ _ hb

/-! ## The body assembler -/

/-- C3: for every method, namespace and prefix namespace, and whatever the token list
holds, `startBody` returns an error if and only if the method or the namespace is
empty. -/
theorem startBody_error_iff (cfg : Config) (ts : tokenData) (m n pn : String) :
    (∃ err, startBody cfg ts m n pn = Except.error err) ↔ (m = "" ∨ n = "") := by
  constructor
  · rintro ⟨err, h⟩
    by_contra hne
    have hm : m ≠ "" := fun hm => hne (Or.inl hm)
    have hn : n ≠ "" := fun hn => hne (Or.inr hn)
    rw [startBody_ok cfg ts m n pn hm hn] at h
    cases h
  · intro h
    exact ⟨_, startBody_error cfg ts m n pn h⟩

/-! ## The header assembler -/

/-- C4: with the header name `Auth` and an empty namespace, `startHeader` opens only
`soap:Header` while `endHeader` closes `Auth` and then `soap:Header`: one start-tag
against two end-tags, and the replay fails on the end-tag `Auth`. -/
theorem header_unbalanced_on_empty_namespace :
    startHeader Config.initial [] "Auth" "" =
        [Token.StartElement ⟨"", "soap:Header"⟩ []] ∧
      endHeader Config.initial [] "Auth" =
        [Token.EndElement ⟨"", "Auth"⟩, Token.EndElement ⟨"", "soap:Header"⟩] ∧
      startCount (startHeader Config.initial [] "Auth" "" ++
        endHeader Config.initial [] "Auth") = 1 ∧
      endCount (startHeader Config.initial [] "Auth" "" ++
        endHeader Config.initial [] "Auth") = 2 ∧
      replay [] (startHeader Config.initial [] "Auth" "" ++
        endHeader Config.initial [] "Auth") = none := by
  decide

/-! ## The recursive encoder on single shapes -/

/-- C7: on the array `[2]interface{}{1, "x"}`, whose position 0 is a whole number,
`recursiveEncode` does not complete: the assertion `label.(string)` panics. -/
theorem recursiveEncode_panics_on_int_label :
    recursiveEncode [] (Value.array [Value.int 1, Value.string "x"]) = none := by
  decide

/-- C10: encoding a `NamespaceParam` appends one start-tag with local name `ns:nm`, no
namespace URI and no attributes, then what encoding the inner value appends, then the
end-tag of the same name; for `ns`, `Foo` and the text `bar` this is the pair `ns:Foo`
around the character data `bar`. -/
theorem recursiveEncode_namespaceParam (ts : tokenData) (ns nm : String) (v : Value) :
    recursiveEncode ts (Value.namespaceParam ns nm v) =
        (recursiveEncode [] v).map (fun enc =>
          ts ++ [Token.StartElement ⟨"", ns ++ ":" ++ nm⟩ []] ++ enc ++
            [Token.EndElement ⟨"", ns ++ ":" ++ nm⟩]) ∧
      recursiveEncode [] (Value.namespaceParam "ns" "Foo" (Value.string "bar")) =
        some [Token.StartElement ⟨"", "ns:Foo"⟩ [], Token.CharData "bar",
          Token.EndElement ⟨"", "ns:Foo"⟩] :=
  ⟨encode_namespaceParam ts ns nm v, by decide⟩

/-! ## The configuration call and the envelope assembler -/

/-- C8: after `SetCustomEnvelope(p, A)` with a mapping `A`, `startEnvelope` appends one
start-tag `p:Envelope` whose attributes are the entries of `A`, one attribute per entry
and no default, and `endEnvelope` appends the end-tag `p:Envelope`; with `env` and the
single entry `xmlns:env` = `urn:x` the tag is `env:Envelope` with that one attribute. -/
theorem custom_envelope (c : Config) (p : String) (A : List (String × String))
    (ts : tokenData) :
    startEnvelope (SetCustomEnvelope c p (some A)) ts =
        ts ++ [Token.StartElement ⟨"", p ++ ":Envelope"⟩
          (A.map fun kv => ⟨⟨"", kv.1⟩, kv.2⟩)] ∧
      endEnvelope (SetCustomEnvelope c p (some A)) ts =
        ts ++ [Token.EndElement ⟨"", p ++ ":Envelope"⟩] ∧
      startEnvelope (SetCustomEnvelope c "env" (some [("xmlns:env", "urn:x")])) [] =
        [Token.StartElement ⟨"", "env:Envelope"⟩ [⟨⟨"", "xmlns:env"⟩, "urn:x"⟩]] ∧
      endEnvelope (SetCustomEnvelope c "env" (some [("xmlns:env", "urn:x")])) [] =
        [Token.EndElement ⟨"", "env:Envelope"⟩] := by
  refine ⟨rfl, rfl, ?_, ?_⟩
  · simp only [startEnvelope, SetCustomEnvelope, List.map, List.nil_append]
    rfl
  · simp only [endEnvelope, SetCustomEnvelope, List.nil_append]
    rfl

/-- C9, counterexample: after a call that set an attribute mapping, a
call with absent attributes keeps that mapping, while the same call made alone from the
initial state leaves the override unset. -/
theorem last_call_does_not_win :
    SetCustomEnvelope (SetCustomEnvelope Config.initial "a" (some [("k", "v")])) "b" none ≠
      SetCustomEnvelope Config.initial "b" none := by
  decide

/-- C9, amended: the prefix is that of the last call; when the last call passes a
mapping the configuration equals that of making only this call from the initial state;
when it passes no mapping the override in force before it is kept (the mapping of the
call before, if it passed one, else the earlier override); and making the same call
twice gives the configuration of making it once. -/
theorem SetCustomEnvelope_twice (c : Config) (p1 p2 : String)
    (a1 a2 : Option (List (String × String))) (A : List (String × String)) :
    (SetCustomEnvelope (SetCustomEnvelope c p1 a1) p2 a2).soapPrefix = p2 ∧
      SetCustomEnvelope (SetCustomEnvelope c p1 a1) p2 (some A) =
        SetCustomEnvelope Config.initial p2 (some A) ∧
      SetCustomEnvelope (SetCustomEnvelope c p1 (some A)) p2 none = ⟨p2, some A⟩ ∧
      SetCustomEnvelope (SetCustomEnvelope c p1 none) p2 none =
        ⟨p2, c.customEnvelopeAttrs⟩ ∧
      SetCustomEnvelope (SetCustomEnvelope c p1 a1) p1 a1 = SetCustomEnvelope c p1 a1 := by
  refine ⟨?_, rfl, rfl, rfl, ?_⟩
  · cases a1 <;> cases a2 <;> rfl
  · cases a1 <;> rfl

/-! ## The envelope driver -/

/-- C2: whenever `MarshalXML` completes its token list, the list has as many start-tags
as end-tags, and its stack replay (push on a start-tag, pop on an end-tag and compare the
names) never underflows or mismatches and ends with the empty stack. -/
theorem MarshalXML_tokens_balanced (cfg : Config) (p : process) (ts : tokenData)
    (h : buildTokens cfg p = some ⟨none, ts⟩) :
    startCount ts = endCount ts ∧ replay [] ts = some [] := by
  obtain ⟨defs, ns, hdefs, hns, hm, hn⟩ := buildTokens_complete cfg p ts h
  rw [buildTokens_past_startBody cfg p defs ns hdefs hns hm hn] at h
  cases hh : headerSection cfg p ns with
  | none => simp [hh] at h
  | some header =>
    cases hb : recursiveEncode [] p.Request.Params with
    | none => simp [hh, hb] at h
    | some bs =>
      simp only [hh, hb, Option.some_bind, Option.map_some', Option.some.injEq,
        BuildResult.mk.injEq, true_and] at h
      have hheader : Balanced header := by
        unfold headerSection at hh
        by_cases hlen : p.Client.HeaderParams.length > 0
        · simp only [hlen, if_true] at hh
          cases hs : recursiveEncode [] p.Client.HeaderParams.toValue with
          | none => simp [hs] at hh
          | some enc =>
            simp only [hs, Option.map_some', Option.some.injEq] at hh
            rw [startHeader_eq, endHeader_eq] at hh
            have hinner := headerName_balanced p.Client.HeaderName ns hn
              (recursiveEncode_balanced _ enc hs)
            have := Balanced.wrap ⟨"", cfg.soapPrefix ++ ":Header"⟩ [] hinner
            rw [← hh]
            simpa using this
        · simp only [hlen, if_false, Option.some.injEq] at hh
          rw [← hh]
          exact Balanced.nil
      have hbody : Balanced ([Token.StartElement
          ⟨"", methodLocal p.Request.Method p.Request.Namespace⟩
          (methodAttrs ns p.Request.Namespace)] ++ bs ++
          [Token.EndElement ⟨"", methodLocal p.Request.Method p.Request.Namespace⟩]) :=
        Balanced.wrap _ _ (recursiveEncode_balanced _ bs hb)
      have hsection := Balanced.wrap ⟨"", cfg.soapPrefix ++ ":Body"⟩ [] hbody
      have hall := Balanced.wrap ⟨"", cfg.soapPrefix ++ ":Envelope"⟩ (envelopeAttrs cfg)
        (hheader.append hsection)
      have hts : ts = [Token.StartElement ⟨"", cfg.soapPrefix ++ ":Envelope"⟩
          (envelopeAttrs cfg)] ++
          (header ++ ([Token.StartElement ⟨"", cfg.soapPrefix ++ ":Body"⟩ []] ++
            ([Token.StartElement ⟨"", methodLocal p.Request.Method p.Request.Namespace⟩
              (methodAttrs ns p.Request.Namespace)] ++ bs ++
              [Token.EndElement ⟨"", methodLocal p.Request.Method p.Request.Namespace⟩]) ++
            [Token.EndElement ⟨"", cfg.soapPrefix ++ ":Body"⟩])) ++
          [Token.EndElement ⟨"", cfg.soapPrefix ++ ":Envelope"⟩] := by
        rw [← h, startEnvelope_eq]
        simp
      rw [hts]
      refine ⟨hall.1, ?_⟩
      have := hall.2 [] []
      simpa [replay] using this

/-- C2 at the request `sampleProcess`. -/
theorem MarshalXML_tokens_balanced_witness :
    buildTokens Config.initial sampleProcess = some ⟨none, sampleTokens⟩ ∧
      startCount sampleTokens = endCount sampleTokens ∧
      replay [] sampleTokens = some [] :=
  ⟨by decide, MarshalXML_tokens_balanced Config.initial sampleProcess sampleTokens (by decide)⟩

theorem append_ne_append (p a b : String) (h : a ≠ b) : p ++ a ≠ p ++ b := by
  intro he
  apply h
  have hd := congrArg String.data he
  simp only [String.data_append, List.append_cancel_left_eq] at hd
  exact String.ext hd

theorem startsNamed_append (l : String) (xs ys : List Token) :
    startsNamed l (xs ++ ys) = startsNamed l xs + startsNamed l ys := by
  simp [startsNamed, List.countP_append]

theorem endsNamed_append (l : String) (xs ys : List Token) :
    endsNamed l (xs ++ ys) = endsNamed l xs + endsNamed l ys := by
  simp [endsNamed, List.countP_append]

theorem startsNamed_start (l k : String) (attrs : List Attr) :
    startsNamed l [Token.StartElement ⟨"", k⟩ attrs] = if k = l then 1 else 0 := by
  by_cases h : k = l <;> simp [startsNamed, isStartNamed, List.countP_cons, h]

theorem startsNamed_end (l : String) (n : Name) : startsNamed l [Token.EndElement n] = 0 := by
  simp [startsNamed, isStartNamed, List.countP_cons]

theorem endsNamed_end (l k : String) :
    endsNamed l [Token.EndElement ⟨"", k⟩] = if k = l then 1 else 0 := by
  by_cases h : k = l <;> simp [endsNamed, isEndNamed, List.countP_cons, h]

theorem endsNamed_start (l : String) (n : Name) (attrs : List Attr) :
    endsNamed l [Token.StartElement n attrs] = 0 := by
  simp [endsNamed, isEndNamed, List.countP_cons]

/-- C5, counterexample: a header parameter whose key is `soap:Header`
gives a token list with two start-tags and two end-tags of that name. -/
theorem two_header_tags :
    0 < headerKeyProcess.Client.HeaderParams.length ∧
      (buildTokens Config.initial headerKeyProcess).map (fun r =>
        (r.err, startsNamed (Config.initial.soapPrefix ++ ":Header") r.data,
          endsNamed (Config.initial.soapPrefix ++ ":Header") r.data)) =
        some (none, 2, 2) := by
  decide

/-- C5, amended: with header parameters, a completed token list is the Envelope
start-tag, the start-tag `<prefix>:Header`, the header-name start-tag if any, the tokens
of the header parameters, the header-name end-tag if any, the end-tag `<prefix>:Header`,
then the body section; so the header parameter tokens lie strictly inside that pair.
The pair is the only start-tag and the only end-tag of that name when neither the header
name, nor the method element, nor a tag of the two parameter trees carries that name. -/
theorem header_pair (cfg : Config) (p : process) (ts : tokenData)
    (hlen : 0 < p.Client.HeaderParams.length)
    (h : buildTokens cfg p = some ⟨none, ts⟩) :
    ∃ (defs : wsdlDefinitions) (ns : String) (hs bs : List Token),
      p.Client.Definitions = some defs ∧ deriveNamespace defs = some ns ∧
      recursiveEncode [] p.Client.HeaderParams.toValue = some hs ∧
      recursiveEncode [] p.Request.Params = some bs ∧
      ts = [Token.StartElement ⟨"", cfg.soapPrefix ++ ":Envelope"⟩ (envelopeAttrs cfg),
            Token.StartElement ⟨"", cfg.soapPrefix ++ ":Header"⟩ []] ++
          headerNameStart p.Client.HeaderName ns ++ hs ++
          headerNameEnd p.Client.HeaderName ++
          [Token.EndElement ⟨"", cfg.soapPrefix ++ ":Header"⟩] ++
          [Token.StartElement ⟨"", cfg.soapPrefix ++ ":Body"⟩ [],
            Token.StartElement ⟨"", methodLocal p.Request.Method p.Request.Namespace⟩
              (methodAttrs ns p.Request.Namespace)] ++ bs ++
          [Token.EndElement ⟨"", methodLocal p.Request.Method p.Request.Namespace⟩,
            Token.EndElement ⟨"", cfg.soapPrefix ++ ":Body"⟩,
            Token.EndElement ⟨"", cfg.soapPrefix ++ ":Envelope"⟩] ∧
      (p.Client.HeaderName ≠ cfg.soapPrefix ++ ":Header" →
        methodLocal p.Request.Method p.Request.Namespace ≠ cfg.soapPrefix ++ ":Header" →
        startsNamed (cfg.soapPrefix ++ ":Header") hs = 0 →
        startsNamed (cfg.soapPrefix ++ ":Header") bs = 0 →
        startsNamed (cfg.soapPrefix ++ ":Header") ts = 1) ∧
      (p.Client.HeaderName ≠ cfg.soapPrefix ++ ":Header" →
        methodLocal p.Request.Method p.Request.Namespace ≠ cfg.soapPrefix ++ ":Header" →
        endsNamed (cfg.soapPrefix ++ ":Header") hs = 0 →
        endsNamed (cfg.soapPrefix ++ ":Header") bs = 0 →
        endsNamed (cfg.soapPrefix ++ ":Header") ts = 1) := by
  obtain ⟨defs, ns, hdefs, hns, hm, hn⟩ := buildTokens_complete cfg p ts h
  rw [buildTokens_past_startBody cfg p defs ns hdefs hns hm hn] at h
  unfold headerSection at h
  simp only [gt_iff_lt, hlen, if_true] at h
  cases hhs : recursiveEncode [] p.Client.HeaderParams.toValue with
  | none => simp [hhs] at h
  | some hs =>
    cases hbs : recursiveEncode [] p.Request.Params with
    | none => simp [hhs, hbs] at h
    | some bs =>
      simp only [hhs, hbs, Option.some_bind, Option.map_some', Option.some.injEq,
        BuildResult.mk.injEq, true_and] at h
      rw [startEnvelope_eq, startHeader_eq, endHeader_eq] at h
      have hts : ts =
          [Token.StartElement ⟨"", cfg.soapPrefix ++ ":Envelope"⟩ (envelopeAttrs cfg),
            Token.StartElement ⟨"", cfg.soapPrefix ++ ":Header"⟩ []] ++
          headerNameStart p.Client.HeaderName ns ++ hs ++
          headerNameEnd p.Client.HeaderName ++
          [Token.EndElement ⟨"", cfg.soapPrefix ++ ":Header"⟩] ++
          [Token.StartElement ⟨"", cfg.soapPrefix ++ ":Body"⟩ [],
            Token.StartElement ⟨"", methodLocal p.Request.Method p.Request.Namespace⟩
              (methodAttrs ns p.Request.Namespace)] ++ bs ++
          [Token.EndElement ⟨"", methodLocal p.Request.Method p.Request.Namespace⟩,
            Token.EndElement ⟨"", cfg.soapPrefix ++ ":Body"⟩,
            Token.EndElement ⟨"", cfg.soapPrefix ++ ":Envelope"⟩] := by
        rw [← h]
        simp
      have hE : cfg.soapPrefix ++ ":Envelope" ≠ cfg.soapPrefix ++ ":Header" :=
        append_ne_append _ _ _ (by decide)
      have hB : cfg.soapPrefix ++ ":Body" ≠ cfg.soapPrefix ++ ":Header" :=
        append_ne_append _ _ _ (by decide)
      have split2 : ∀ a b : Token, [a, b] = [a] ++ [b] := fun _ _ => rfl
      have split3 : ∀ a b c : Token, [a, b, c] = [a] ++ [b] ++ [c] := fun _ _ _ => rfl
      refine ⟨defs, ns, hs, bs, hdefs, hns, rfl, rfl, hts, ?_, ?_⟩
      · intro hname hmeth h1 h2
        have hpre : startsNamed (cfg.soapPrefix ++ ":Header")
            (headerNameStart p.Client.HeaderName ns) = 0 := by
          unfold headerNameStart
          split
          · rfl
          · rw [startsNamed_start, if_neg hname]
        have hpost : startsNamed (cfg.soapPrefix ++ ":Header")
            (headerNameEnd p.Client.HeaderName) = 0 := by
          unfold headerNameEnd
          split
          · rfl
          · exact startsNamed_end _ _
        rw [hts, split2, split2, split3]
        simp only [startsNamed_append, startsNamed_start, startsNamed_end, h1, h2, hpre,
          hpost, if_neg hE, if_neg hB, if_neg hmeth, if_true]
      · intro hname hmeth h1 h2
        have hpre : endsNamed (cfg.soapPrefix ++ ":Header")
            (headerNameStart p.Client.HeaderName ns) = 0 := by
          unfold headerNameStart
          split
          · rfl
          · exact endsNamed_start _ _ _
        have hpost : endsNamed (cfg.soapPrefix ++ ":Header")
            (headerNameEnd p.Client.HeaderName) = 0 := by
          unfold headerNameEnd
          split
          · rfl
          · rw [endsNamed_end, if_neg hname]
        rw [hts, split2, split2, split3]
        simp only [endsNamed_append, endsNamed_start, endsNamed_end, h1, h2, hpre,
          hpost, if_neg hE, if_neg hB, if_neg hmeth, if_true]

/-- C5, amended, at the request `sampleProcess`: its token list has one start-tag and
one end-tag named `soap:Header`. -/
theorem header_pair_witness :
    0 < sampleProcess.Client.HeaderParams.length ∧
      buildTokens Config.initial sampleProcess = some ⟨none, sampleTokens⟩ ∧
      startsNamed "soap:Header" sampleTokens = 1 ∧
      endsNamed "soap:Header" sampleTokens = 1 := by
  refine ⟨by decide, by decide, ?_, ?_⟩
  · obtain ⟨defs, ns, hs, bs, _, _, h1, h2, _, hstart, _⟩ :=
      header_pair Config.initial sampleProcess sampleTokens (by decide) (by decide)
    have e1 : hs = [Token.StartElement ⟨"", "Token"⟩ [], Token.CharData "abc",
        Token.EndElement ⟨"", "Token"⟩] :=
      Option.some.inj (h1.symm.trans (by decide))
    have e2 : bs = [Token.StartElement ⟨"", "A"⟩ [], Token.CharData "7",
        Token.EndElement ⟨"", "A"⟩] :=
      Option.some.inj (h2.symm.trans (by decide))
    exact hstart (by decide) (by decide) (by rw [e1]; decide) (by rw [e2]; decide)
  · obtain ⟨defs, ns, hs, bs, _, _, h1, h2, _, _, hend⟩ :=
      header_pair Config.initial sampleProcess sampleTokens (by decide) (by decide)
    have e1 : hs = [Token.StartElement ⟨"", "Token"⟩ [], Token.CharData "abc",
        Token.EndElement ⟨"", "Token"⟩] :=
      Option.some.inj (h1.symm.trans (by decide))
    have e2 : bs = [Token.StartElement ⟨"", "A"⟩ [], Token.CharData "7",
        Token.EndElement ⟨"", "A"⟩] :=
      Option.some.inj (h2.symm.trans (by decide))
    exact hend (by decide) (by decide) (by rw [e1]; decide) (by rw [e2]; decide)

/-- C1, counterexample: without header parameters the list can still hold tags named
`soap:Header`: a body parameter with that key, or the method `Header` with the prefix
namespace `soap`, gives one start-tag and one end-tag of that name. -/
theorem header_name_without_header :
    bodyKeyProcess.Client.HeaderParams.length = 0 ∧
      (MarshalXML Config.initial bodyKeyProcess acceptAll).map (fun r =>
        (r.err, startsNamed (Config.initial.soapPrefix ++ ":Header") r.data,
          endsNamed (Config.initial.soapPrefix ++ ":Header") r.data)) =
        some (none, 1, 1) ∧
      headerMethodProcess.Client.HeaderParams.length = 0 ∧
      (MarshalXML Config.initial headerMethodProcess acceptAll).map (fun r =>
        (r.err, startsNamed (Config.initial.soapPrefix ++ ":Header") r.data,
          endsNamed (Config.initial.soapPrefix ++ ":Header") r.data)) =
        some (none, 1, 1) := by
  decide

/-- C1, amended: when `Definitions` is present and `startBody` succeeds, the token list
built by `MarshalXML` is the Envelope start-tag; then, exactly when there are header
parameters, the tokens of `startHeader`, of the header parameters and of `endHeader`;
then the Body start-tag, the method start-tag, the tokens of the body parameters, the
method end-tag, the Body end-tag and the Envelope end-tag, and nothing else.  Without
header parameters the Body start-tag follows the Envelope start-tag directly, and no
start-tag or end-tag named `<prefix>:Header` is in the list when neither the method
element nor a tag of the body parameters carries that name. -/
theorem MarshalXML_token_list (cfg : Config) (p : process) (e : Encoder)
    (defs : wsdlDefinitions) (ns : String) (ts0 out : tokenData)
    (hdefs : p.Client.Definitions = some defs) (hns : deriveNamespace defs = some ns)
    (hbody : startBody cfg ts0 p.Request.Method ns p.Request.Namespace = Except.ok out) :
    (MarshalXML cfg p e).map MarshalResult.data =
        ((if p.Client.HeaderParams.length > 0 then
            (recursiveEncode [] p.Client.HeaderParams.toValue).map fun hs =>
              startHeader cfg [] p.Client.HeaderName ns ++ hs ++
                endHeader cfg [] p.Client.HeaderName
          else some []).bind fun header =>
          (recursiveEncode [] p.Request.Params).map fun bs =>
            [Token.StartElement ⟨"", cfg.soapPrefix ++ ":Envelope"⟩ (envelopeAttrs cfg)] ++
              header ++
              [Token.StartElement ⟨"", cfg.soapPrefix ++ ":Body"⟩ [],
                Token.StartElement ⟨"", methodLocal p.Request.Method p.Request.Namespace⟩
                  (methodAttrs ns p.Request.Namespace)] ++ bs ++
              [Token.EndElement ⟨"", methodLocal p.Request.Method p.Request.Namespace⟩,
                Token.EndElement ⟨"", cfg.soapPrefix ++ ":Body"⟩,
                Token.EndElement ⟨"", cfg.soapPrefix ++ ":Envelope"⟩]) ∧
      (p.Client.HeaderParams.length = 0 →
        (MarshalXML cfg p e).map MarshalResult.data =
          (recursiveEncode [] p.Request.Params).map fun bs =>
            [Token.StartElement ⟨"", cfg.soapPrefix ++ ":Envelope"⟩ (envelopeAttrs cfg),
              Token.StartElement ⟨"", cfg.soapPrefix ++ ":Body"⟩ [],
              Token.StartElement ⟨"", methodLocal p.Request.Method p.Request.Namespace⟩
                (methodAttrs ns p.Request.Namespace)] ++ bs ++
            [Token.EndElement ⟨"", methodLocal p.Request.Method p.Request.Namespace⟩,
              Token.EndElement ⟨"", cfg.soapPrefix ++ ":Body"⟩,
              Token.EndElement ⟨"", cfg.soapPrefix ++ ":Envelope"⟩]) ∧
      (p.Client.HeaderParams.length = 0 →
        methodLocal p.Request.Method p.Request.Namespace ≠ cfg.soapPrefix ++ ":Header" →
        ∀ bs : List Token, recursiveEncode [] p.Request.Params = some bs →
          startsNamed (cfg.soapPrefix ++ ":Header") bs = 0 →
          endsNamed (cfg.soapPrefix ++ ":Header") bs = 0 →
          ∃ ts : List Token, (MarshalXML cfg p e).map MarshalResult.data = some ts ∧
            startsNamed (cfg.soapPrefix ++ ":Header") ts = 0 ∧
            endsNamed (cfg.soapPrefix ++ ":Header") ts = 0) := by
  have hmn : p.Request.Method ≠ "" ∧ ns ≠ "" := by
    constructor
    · intro hm
      rw [startBody_error cfg ts0 _ ns _ (Or.inl hm)] at hbody
      cases hbody
    · intro hn
      rw [startBody_error cfg ts0 _ ns _ (Or.inr hn)] at hbody
      cases hbody
  have hmain := buildTokens_past_startBody cfg p defs ns hdefs hns hmn.1 hmn.2
  rw [MarshalXML_data, hmain]
  unfold headerSection
  have hplain : p.Client.HeaderParams.length = 0 →
      Option.map BuildResult.data
        ((if p.Client.HeaderParams.length > 0 then
            (recursiveEncode [] p.Client.HeaderParams.toValue).map fun hs =>
              startHeader cfg [] p.Client.HeaderName ns ++ hs ++
                endHeader cfg [] p.Client.HeaderName
          else some []).bind fun header =>
          (recursiveEncode [] p.Request.Params).map fun bs =>
            BuildResult.mk none
              (startEnvelope cfg [] ++ header ++
                [Token.StartElement ⟨"", cfg.soapPrefix ++ ":Body"⟩ [],
                  Token.StartElement ⟨"", methodLocal p.Request.Method p.Request.Namespace⟩
                    (methodAttrs ns p.Request.Namespace)] ++ bs ++
                [Token.EndElement ⟨"", methodLocal p.Request.Method p.Request.Namespace⟩,
                  Token.EndElement ⟨"", cfg.soapPrefix ++ ":Body"⟩,
                  Token.EndElement ⟨"", cfg.soapPrefix ++ ":Envelope"⟩])) =
        (recursiveEncode [] p.Request.Params).map fun bs =>
          [Token.StartElement ⟨"", cfg.soapPrefix ++ ":Envelope"⟩ (envelopeAttrs cfg),
            Token.StartElement ⟨"", cfg.soapPrefix ++ ":Body"⟩ [],
            Token.StartElement ⟨"", methodLocal p.Request.Method p.Request.Namespace⟩
              (methodAttrs ns p.Request.Namespace)] ++ bs ++
          [Token.EndElement ⟨"", methodLocal p.Request.Method p.Request.Namespace⟩,
            Token.EndElement ⟨"", cfg.soapPrefix ++ ":Body"⟩,
            Token.EndElement ⟨"", cfg.soapPrefix ++ ":Envelope"⟩] := by
    intro hlen
    have hnot : ¬ p.Client.HeaderParams.length > 0 := by omega
    simp only [hnot, if_false, Option.some_bind, startEnvelope_eq, List.nil_append]
    cases recursiveEncode [] p.Request.Params <;> simp
  refine ⟨?_, hplain, ?_⟩
  · cases (if p.Client.HeaderParams.length > 0 then
        (recursiveEncode [] p.Client.HeaderParams.toValue).map fun hs =>
          startHeader cfg [] p.Client.HeaderName ns ++ hs ++
            endHeader cfg [] p.Client.HeaderName
      else some []) with
    | none => rfl
    | some header =>
      simp only [Option.some_bind, startEnvelope_eq, List.nil_append]
      cases recursiveEncode [] p.Request.Params <;> rfl
  · intro hlen hmeth bs hbs h1 h2
    rw [hplain hlen, hbs]
    refine ⟨_, rfl, ?_, ?_⟩
    · have hE : cfg.soapPrefix ++ ":Envelope" ≠ cfg.soapPrefix ++ ":Header" :=
        append_ne_append _ _ _ (by decide)
      have hB : cfg.soapPrefix ++ ":Body" ≠ cfg.soapPrefix ++ ":Header" :=
        append_ne_append _ _ _ (by decide)
      have split3 : ∀ a b c : Token, [a, b, c] = [a] ++ [b] ++ [c] := fun _ _ _ => rfl
      rw [split3, split3]
      simp only [startsNamed_append, startsNamed_start, startsNamed_end, h1, if_neg hE,
        if_neg hB, if_neg hmeth]
    · have hE : cfg.soapPrefix ++ ":Envelope" ≠ cfg.soapPrefix ++ ":Header" :=
        append_ne_append _ _ _ (by decide)
      have hB : cfg.soapPrefix ++ ":Body" ≠ cfg.soapPrefix ++ ":Header" :=
        append_ne_append _ _ _ (by decide)
      have split3 : ∀ a b c : Token, [a, b, c] = [a] ++ [b] ++ [c] := fun _ _ _ => rfl
      rw [split3, split3]
      simp only [endsNamed_append, endsNamed_start, endsNamed_end, h2, if_neg hE,
        if_neg hB, if_neg hmeth]

/-- C1, amended, at two requests, one with a header parameter and one without; the list
of the second holds no tag named `soap:Header`. -/
theorem MarshalXML_token_list_witness :
    (MarshalXML Config.initial sampleProcess acceptAll).map MarshalResult.data =
        some sampleTokens ∧
      (MarshalXML Config.initial plainProcess acceptAll).map MarshalResult.data =
        some plainTokens ∧
      ∃ ts : List Token,
        (MarshalXML Config.initial plainProcess acceptAll).map MarshalResult.data = some ts ∧
          startsNamed (Config.initial.soapPrefix ++ ":Header") ts = 0 ∧
          endsNamed (Config.initial.soapPrefix ++ ":Header") ts = 0 :=
  ⟨(MarshalXML_token_list Config.initial sampleProcess acceptAll sampleDefinitions "urn:t"
      [] _ rfl (by decide) rfl).1.trans (by decide),
    ((MarshalXML_token_list Config.initial plainProcess acceptAll sampleDefinitions "urn:t"
      [] _ rfl (by decide) rfl).2.1 (by decide)).trans (by decide),
    (MarshalXML_token_list Config.initial plainProcess acceptAll sampleDefinitions "urn:t"
      [] _ rfl (by decide) rfl).2.2 (by decide) (by decide) [Token.CharData "hi"]
      (by decide) (by decide) (by decide)⟩

/-- C6: with an empty method name `MarshalXML` does not always return an error: it
panics when a header parameter holds the array `[2]interface{}{1, "x"}` (the assertion
`label.(string)`), and when `Types` is present and empty (index out of range). -/
theorem MarshalXML_panics_before_startBody :
    badLabelProcess.Request.Method = "" ∧
      MarshalXML Config.initial badLabelProcess acceptAll = none ∧
      emptyTypesProcess.Request.Method = "" ∧
      MarshalXML Config.initial emptyTypesProcess acceptAll = none := by
  decide

/-! ## The recursive encoder on sequences and mappings -/

/-- The Slice loop appends the tokens of the elements one after the other. -/
theorem encodeIndices_mapM (ts : tokenData) (vs : List Value) :
    encodeIndices ts vs =
      (vs.mapM (recursiveEncode [])).map fun encs => ts ++ encs.flatten := by
  induction vs generalizing ts with
  | nil =>
    rw [encodeIndices, List.mapM_nil]
    show some ts = some (ts ++ ([] : List (List Token)).flatten)
    simp
  | cons v rest ih =>
    rw [encodeIndices_cons, List.mapM_cons, ih []]
    cases recursiveEncode [] v with
    | none => rfl
    | some enc =>
      cases List.mapM (recursiveEncode []) rest with
      | none => rfl
      | some encs =>
        show some (ts ++ enc ++ ([] ++ encs.flatten)) = some (ts ++ (enc :: encs).flatten)
        simp

/-- The Map loop appends one block per entry: the tag pair named after the key around
the tokens of the entry value. -/
theorem encodeMapKeys_mapM (ts : tokenData) (es : List (MapKey × Value)) :
    encodeMapKeys ts es =
      (es.mapM fun e => (recursiveEncode [] e.2).map fun enc =>
          [Token.StartElement ⟨"", e.1.String⟩ []] ++ enc ++
            [Token.EndElement ⟨"", e.1.String⟩]).map
        fun blocks => ts ++ blocks.flatten := by
  induction es generalizing ts with
  | nil =>
    rw [encodeMapKeys, List.mapM_nil]
    show some ts = some (ts ++ ([] : List (List Token)).flatten)
    simp
  | cons e rest ih =>
    obtain ⟨k, v⟩ := e
    rw [encodeMapKeys_cons, List.mapM_cons, ih []]
    cases recursiveEncode [] v with
    | none => rfl
    | some enc =>
      cases List.mapM (fun e : MapKey × Value => (recursiveEncode [] e.2).map fun enc =>
          [Token.StartElement ⟨"", e.1.String⟩ []] ++ enc ++
            [Token.EndElement ⟨"", e.1.String⟩]) rest with
      | none => rfl
      | some blocks =>
        show some (ts ++ [Token.StartElement ⟨"", k.String⟩ []] ++ enc ++
            [Token.EndElement ⟨"", k.String⟩] ++ ([] ++ blocks.flatten)) =
          some (ts ++ (([Token.StartElement ⟨"", k.String⟩ []] ++ enc ++
            [Token.EndElement ⟨"", k.String⟩]) :: blocks).flatten)
        simp

/-- A list that is a reordering of two entries is one of the two orders. -/
theorem perm_pair_cases {α : Type} {x y : α} {l : List α} (h : l.Perm [x, y]) :
    l = [x, y] ∨ l = [y, x] := by
  have hlen := h.length_eq
  match l, h, hlen with
  | [a, b], h, _ =>
    have ha : a ∈ [x, y] := h.subset (List.mem_cons_self _ _)
    simp only [List.mem_cons, List.mem_singleton, List.not_mem_nil, or_false] at ha
    rcases ha with rfl | rfl
    · have hb := List.perm_singleton.1 ((List.perm_cons a).1 h)
      left
      rw [hb]
    · have h2 : [a, b].Perm [a, x] := h.trans (List.Perm.swap _ _ _)
      have hb := List.perm_singleton.1 ((List.perm_cons a).1 h2)
      right
      rw [hb]

/-- C11: encoding an array of length two whose label is the text `l` appends one
start-tag named `l`, then what encoding the content appends, then one end-tag named `l`;
the pair `Item` with the sequence of `a` and `b` gives the four tokens start `Item`,
`a`, `b`, end `Item`. -/
theorem recursiveEncode_pair (ts : tokenData) (l : String) (v : Value) :
    recursiveEncode ts (Value.array [Value.string l, v]) =
        (recursiveEncode [] v).map (fun enc =>
          ts ++ [Token.StartElement ⟨"", l⟩ []] ++ enc ++ [Token.EndElement ⟨"", l⟩]) ∧
      recursiveEncode []
          (Value.array [Value.string "Item",
            Value.slice [Value.string "a", Value.string "b"]]) =
        some [Token.StartElement ⟨"", "Item"⟩ [], Token.CharData "a", Token.CharData "b",
          Token.EndElement ⟨"", "Item"⟩] :=
  ⟨encode_pair ts l v, by decide⟩

/-- C12: encoding a mapping appends, in the order in which its entries are visited, one
block per entry and nothing else: the start-tag named after the key, the tokens of the
entry value, the end-tag of the same name.  For the mapping of `A` to the text `x` and
`B` to the number 7, whichever order the entries are visited in, the result is the block
of `A` and the block of `B` in one of the two orders. -/
theorem recursiveEncode_map (ts : tokenData) :
    (∀ es : List (MapKey × Value),
      recursiveEncode ts (Value.map es) =
        (es.mapM fun e => (recursiveEncode [] e.2).map fun enc =>
            [Token.StartElement ⟨"", e.1.String⟩ []] ++ enc ++
              [Token.EndElement ⟨"", e.1.String⟩]).map
          fun blocks => ts ++ blocks.flatten) ∧
      (∀ es : List (MapKey × Value),
        es.Perm [(MapKey.text "A", Value.string "x"), (MapKey.text "B", Value.int 7)] →
        recursiveEncode [] (Value.map es) =
            some [Token.StartElement ⟨"", "A"⟩ [], Token.CharData "x",
              Token.EndElement ⟨"", "A"⟩, Token.StartElement ⟨"", "B"⟩ [],
              Token.CharData "7", Token.EndElement ⟨"", "B"⟩] ∨
          recursiveEncode [] (Value.map es) =
            some [Token.StartElement ⟨"", "B"⟩ [], Token.CharData "7",
              Token.EndElement ⟨"", "B"⟩, Token.StartElement ⟨"", "A"⟩ [],
              Token.CharData "x", Token.EndElement ⟨"", "A"⟩]) := by
  constructor
  · intro es
    rw [recursiveEncode]
    exact encodeMapKeys_mapM ts es
  · intro es hperm
    rcases perm_pair_cases hperm with rfl | rfl
    · left; decide
    · right; decide

/-- C12 at the visiting order `B`, `A`. -/
theorem recursiveEncode_map_witness :
    recursiveEncode []
          (Value.map [(MapKey.text "B", Value.int 7), (MapKey.text "A", Value.string "x")]) =
        some [Token.StartElement ⟨"", "A"⟩ [], Token.CharData "x",
          Token.EndElement ⟨"", "A"⟩, Token.StartElement ⟨"", "B"⟩ [],
          Token.CharData "7", Token.EndElement ⟨"", "B"⟩] ∨
      recursiveEncode []
          (Value.map [(MapKey.text "B", Value.int 7), (MapKey.text "A", Value.string "x")]) =
        some [Token.StartElement ⟨"", "B"⟩ [], Token.CharData "7",
          Token.EndElement ⟨"", "B"⟩, Token.StartElement ⟨"", "A"⟩ [],
          Token.CharData "x", Token.EndElement ⟨"", "A"⟩] :=
  (recursiveEncode_map []).2 _ (List.Perm.swap _ _ _)

/-- C16: encoding a sequence appends the tokens of its elements, in order, and no tag of
its own; the empty sequence appends nothing; a first element contributes its tokens
before those of the remaining elements; and the concatenation of two sequences appends
the tokens of the first followed by the tokens of the second. -/
theorem recursiveEncode_slice (ts : tokenData) (v : Value) (vs xs ys : List Value) :
    recursiveEncode ts (Value.slice vs) =
        ((vs.mapM (recursiveEncode [])).map fun encs => ts ++ encs.flatten) ∧
      recursiveEncode ts (Value.slice []) = some ts ∧
      recursiveEncode ts (Value.slice (v :: vs)) =
        ((recursiveEncode [] v).bind fun a =>
          (recursiveEncode [] (Value.slice vs)).map fun b => ts ++ a ++ b) ∧
      recursiveEncode ts (Value.slice (xs ++ ys)) =
        ((recursiveEncode [] (Value.slice xs)).bind fun a =>
          (recursiveEncode [] (Value.slice ys)).map fun b => ts ++ a ++ b) := by
  refine ⟨?_, ?_, ?_, ?_⟩
  · rw [recursiveEncode]
    exact encodeIndices_mapM ts vs
  · simp [recursiveEncode, encodeIndices]
  · rw [recursiveEncode, recursiveEncode]
    exact encodeIndices_cons ts v vs
  · rw [recursiveEncode, recursiveEncode, recursiveEncode, encodeIndices_mapM ts,
      encodeIndices_mapM [] xs, encodeIndices_mapM [] ys, List.mapM_append]
    cases List.mapM (recursiveEncode []) xs with
    | none => rfl
    | some a =>
      cases List.mapM (recursiveEncode []) ys with
      | none => rfl
      | some b =>
        show some (ts ++ (a ++ b).flatten) = some (ts ++ ([] ++ a.flatten) ++ ([] ++ b.flatten))
        simp

/-- C17: encoding a text appends one character-data token holding the text unchanged,
the empty text and markup characters included; encoding a whole number appends one
character-data token holding its base-10 rendering, with a minus sign when negative. -/
theorem recursiveEncode_scalar (ts : tokenData) (s : String) (n : Int) :
    recursiveEncode ts (Value.string s) = some (ts ++ [Token.CharData s]) ∧
      recursiveEncode ts (Value.int n) = some (ts ++ [Token.CharData (Itoa n)]) ∧
      (0 ≤ n → Itoa n = Nat.repr n.toNat) ∧
      (n < 0 → Itoa n = "-" ++ Nat.repr (-n).toNat) ∧
      recursiveEncode [] (Value.string "") = some [Token.CharData ""] ∧
      recursiveEncode [] (Value.string "<a & b>") = some [Token.CharData "<a & b>"] ∧
      recursiveEncode [] (Value.int (-42)) = some [Token.CharData "-42"] ∧
      recursiveEncode [] (Value.int 0) = some [Token.CharData "0"] ∧
      recursiveEncode [] (Value.int 1905) = some [Token.CharData "1905"] := by
  refine ⟨by simp [recursiveEncode], by simp [recursiveEncode], ?_, ?_, by decide,
    by decide, by decide, by decide, by decide⟩
  · intro h
    have hn : ¬ n < 0 := by omega
    have e : n.natAbs = n.toNat := by omega
    simp [Itoa, hn, e]
  · intro h
    have e : n.natAbs = (-n).toNat := by omega
    simp [Itoa, h, e]

/-- C17 at the numbers 7 and -7. -/
theorem recursiveEncode_scalar_witness :
    Itoa 7 = Nat.repr (7 : Int).toNat ∧ Itoa (-7) = "-" ++ Nat.repr (-(-7 : Int)).toNat :=
  ⟨(recursiveEncode_scalar [] "" 7).2.2.1 (by decide),
    (recursiveEncode_scalar [] "" (-7)).2.2.2.1 (by decide)⟩

/-- C18: on a floating-point number, a boolean, nil, a struct other than
`NamespaceParam`, or an array whose length is not two, `recursiveEncode` returns the
token list it was given. -/
theorem recursiveEncode_unsupported (ts : tokenData) (b : Bool) (vs : List Value)
    (hlen : vs.length ≠ 2) :
    recursiveEncode ts Value.float = some ts ∧
      recursiveEncode ts (Value.bool b) = some ts ∧
      recursiveEncode ts Value.nil = some ts ∧
      recursiveEncode ts Value.otherStruct = some ts ∧
      recursiveEncode ts (Value.array vs) = some ts := by
  refine ⟨by simp [recursiveEncode], by simp [recursiveEncode], by simp [recursiveEncode],
    by simp [recursiveEncode], ?_⟩
  match vs, hlen with
  | [], _ => simp [recursiveEncode]
  | [_], _ => simp [recursiveEncode]
  | [_, _], h => exact absurd rfl h
  | _ :: _ :: _ :: _, _ => simp [recursiveEncode]

/-- C18 at an array of three texts, after one token. -/
theorem recursiveEncode_unsupported_witness :
    recursiveEncode [Token.CharData "t"] Value.float = some [Token.CharData "t"] ∧
      recursiveEncode [Token.CharData "t"] (Value.bool true) = some [Token.CharData "t"] ∧
      recursiveEncode [Token.CharData "t"] Value.nil = some [Token.CharData "t"] ∧
      recursiveEncode [Token.CharData "t"] Value.otherStruct = some [Token.CharData "t"] ∧
      recursiveEncode [Token.CharData "t"]
          (Value.array [Value.string "a", Value.string "b", Value.string "c"]) =
        some [Token.CharData "t"] :=
  recursiveEncode_unsupported [Token.CharData "t"] true
    [Value.string "a", Value.string "b", Value.string "c"] (by decide)

/-! ## Namespace derivation, body tags and default attributes -/

/-- C13: the namespace derivation does not complete for every `Definitions`: with a
`Types` slice that is present and holds no element, and with a first element whose
schema list is empty, the index 0 is out of range. -/
theorem deriveNamespace_index_out_of_range :
    deriveNamespace ⟨some []⟩ = none ∧ deriveNamespace ⟨some [⟨[]⟩]⟩ = none ∧
      deriveNamespace ⟨none⟩ = some "" ∧
      deriveNamespace ⟨some [⟨[⟨"urn:t"⟩, ⟨"urn:u"⟩]⟩, ⟨[]⟩]⟩ = some "urn:t" := by
  decide

/-- C14: with a method and a namespace, `startBody` appends two tokens: the start-tag
`<prefix>:Body` without attributes, then the start-tag `pn:m` without attributes when a
prefix namespace is given, and otherwise the start-tag `m` with the one attribute
`xmlns` set to the namespace. -/
theorem startBody_tokens (cfg : Config) (ts : tokenData) (m n pn : String)
    (hm : m ≠ "") (hn : n ≠ "") :
    startBody cfg ts m n pn =
      Except.ok (ts ++ [Token.StartElement ⟨"", cfg.soapPrefix ++ ":Body"⟩ [],
        if pn ≠ "" then Token.StartElement ⟨"", pn ++ ":" ++ m⟩ []
        else Token.StartElement ⟨"", m⟩ [⟨⟨"", "xmlns"⟩, n⟩]]) := by
  unfold startBody
  simp [hm, hn]

/-- C14 with and without a prefix namespace. -/
theorem startBody_tokens_witness :
    startBody Config.initial [] "Ping" "urn:t" "tns" =
        Except.ok [Token.StartElement ⟨"", "soap:Body"⟩ [],
          Token.StartElement ⟨"", "tns:Ping"⟩ []] ∧
      startBody Config.initial [] "Ping" "urn:t" "" =
        Except.ok [Token.StartElement ⟨"", "soap:Body"⟩ [],
          Token.StartElement ⟨"", "Ping"⟩ [⟨⟨"", "xmlns"⟩, "urn:t"⟩]] :=
  ⟨(startBody_tokens Config.initial [] "Ping" "urn:t" "tns" (by decide) (by decide)).trans
      (congrArg Except.ok (by decide)),
    (startBody_tokens Config.initial [] "Ping" "urn:t" "" (by decide) (by decide)).trans
      (congrArg Except.ok (by decide))⟩

/-- C15: with a method and a namespace, `endBody` appends two end-tags: the first
carries the name of the second start-tag of `startBody`, the second the name
`<prefix>:Body` of its first; the tokens of `startBody`, a balanced run and the tokens
of `endBody` form a balanced run. -/
theorem endBody_mirrors_startBody (cfg : Config) (ts ts2 : tokenData) (m n pn : String)
    (hm : m ≠ "") (hn : n ≠ "") :
    ∃ (inner : Name) (attrs : List Attr),
      startBody cfg ts m n pn =
        Except.ok (ts ++ [Token.StartElement ⟨"", cfg.soapPrefix ++ ":Body"⟩ [],
          Token.StartElement inner attrs]) ∧
      endBody cfg ts2 m pn =
        ts2 ++ [Token.EndElement inner,
          Token.EndElement ⟨"", cfg.soapPrefix ++ ":Body"⟩] ∧
      ∀ content : List Token, Balanced content →
        Balanced ([Token.StartElement ⟨"", cfg.soapPrefix ++ ":Body"⟩ [],
          Token.StartElement inner attrs] ++ content ++
          [Token.EndElement inner, Token.EndElement ⟨"", cfg.soapPrefix ++ ":Body"⟩]) := by
  refine ⟨⟨"", methodLocal m pn⟩, methodAttrs n pn, startBody_ok cfg ts m n pn hm hn,
    endBody_eq cfg ts2 m pn, ?_⟩
  intro content hc
  have h1 := Balanced.wrap ⟨"", methodLocal m pn⟩ (methodAttrs n pn) hc
  have h2 := Balanced.wrap ⟨"", cfg.soapPrefix ++ ":Body"⟩ [] h1
  simpa using h2

/-- C15 at the method `Ping` with prefix namespace `tns` around one text token. -/
theorem endBody_mirrors_startBody_witness :
    endBody Config.initial [] "Ping" "tns" =
        [Token.EndElement ⟨"", "tns:Ping"⟩, Token.EndElement ⟨"", "soap:Body"⟩] ∧
      replay [] [Token.StartElement ⟨"", "soap:Body"⟩ [],
        Token.StartElement ⟨"", "tns:Ping"⟩ [], Token.CharData "hi",
        Token.EndElement ⟨"", "tns:Ping"⟩, Token.EndElement ⟨"", "soap:Body"⟩] = some [] := by
  obtain ⟨inner, attrs, h1, h2, h3⟩ :=
    endBody_mirrors_startBody Config.initial [] [] "Ping" "urn:t" "tns" (by decide)
      (by decide)
  have e1 : startBody Config.initial [] "Ping" "urn:t" "tns" =
      Except.ok [Token.StartElement ⟨"", "soap:Body"⟩ [],
        Token.StartElement ⟨"", "tns:Ping"⟩ []] :=
    (startBody_ok Config.initial [] "Ping" "urn:t" "tns" (by decide) (by decide)).trans
      (congrArg Except.ok (by decide))
  rw [e1] at h1
  simp only [Except.ok.injEq, List.nil_append, List.cons.injEq, Token.StartElement.injEq,
    and_true, true_and] at h1
  obtain ⟨hinner, hattrs⟩ := h1.2
  subst hinner hattrs
  refine ⟨h2, ?_⟩
  exact (h3 [Token.CharData "hi"] (Balanced.charData "hi")).2 [] []

/-- C19: with `Definitions` present and `Types` nil, `MarshalXML` does not return the
error of `startBody` for every header parameter tree: it panics when a header parameter
holds the array `[2]interface{}{1, "x"}`; it also panics, at `Types[0]`, when the
`Types` slice is present and holds no element. -/
theorem MarshalXML_no_types_panics :
    noTypesProcess.Client.Definitions = some ⟨none⟩ ∧
      MarshalXML Config.initial noTypesProcess acceptAll = none ∧
      noElementProcess.Client.Definitions = some ⟨some []⟩ ∧
      MarshalXML Config.initial noElementProcess acceptAll = none := by
  decide

/-- C20, counterexample: with the prefix `xsi`, which differs from `soap`, and no
attribute override, the Envelope start-tag carries the attribute `xmlns:xsi`. -/
theorem xsi_prefix_is_declared :
    "xsi" ≠ "soap" ∧ Config.initial.customEnvelopeAttrs = none ∧
      startEnvelope (SetCustomEnvelope Config.initial "xsi" none) [] =
        [Token.StartElement ⟨"", "xsi:Envelope"⟩
          [⟨⟨"", "xmlns:" ++ "xsi"⟩, "http://www.w3.org/2001/XMLSchema-instance"⟩,
           ⟨⟨"", "xmlns:xsd"⟩, "http://www.w3.org/2001/XMLSchema"⟩,
           ⟨⟨"", "xmlns:soap"⟩, "http://schemas.xmlsoap.org/soap/envelope/"⟩]] := by
  decide

/-- C20, amended: without an attribute override, after `SetCustomEnvelope(p, absent)`
the Envelope start-tag carries the three fixed attributes `xmlns:xsi`, `xmlns:xsd`,
`xmlns:soap` in this order whatever `p` is, while the envelope, header and body tags are
named with `p`; when `p` is none of `soap`, `xsi`, `xsd`, no attribute `xmlns:p` is
among them. -/
theorem default_envelope_attrs (c : Config) (p : String) (ts : tokenData)
    (h : c.customEnvelopeAttrs = none) :
    startEnvelope (SetCustomEnvelope c p none) ts =
        ts ++ [Token.StartElement ⟨"", p ++ ":Envelope"⟩
          [⟨⟨"", "xmlns:xsi"⟩, "http://www.w3.org/2001/XMLSchema-instance"⟩,
           ⟨⟨"", "xmlns:xsd"⟩, "http://www.w3.org/2001/XMLSchema"⟩,
           ⟨⟨"", "xmlns:soap"⟩, "http://schemas.xmlsoap.org/soap/envelope/"⟩]] ∧
      endEnvelope (SetCustomEnvelope c p none) ts =
        ts ++ [Token.EndElement ⟨"", p ++ ":Envelope"⟩] ∧
      (∀ m n : String, startHeader (SetCustomEnvelope c p none) [] m n =
        Token.StartElement ⟨"", p ++ ":Header"⟩ [] :: headerNameStart m n) ∧
      (∀ m : String, endHeader (SetCustomEnvelope c p none) [] m =
        headerNameEnd m ++ [Token.EndElement ⟨"", p ++ ":Header"⟩]) ∧
      (∀ m n pn : String, m ≠ "" → n ≠ "" →
        startBody (SetCustomEnvelope c p none) ts m n pn =
          Except.ok (ts ++ [Token.StartElement ⟨"", p ++ ":Body"⟩ [],
            Token.StartElement ⟨"", methodLocal m pn⟩ (methodAttrs n pn)])) ∧
      (∀ m pn : String, endBody (SetCustomEnvelope c p none) ts m pn =
        ts ++ [Token.EndElement ⟨"", methodLocal m pn⟩,
          Token.EndElement ⟨"", p ++ ":Body"⟩]) ∧
      (p ≠ "soap" → p ≠ "xsi" → p ≠ "xsd" →
        ∀ a ∈ envelopeAttrs (SetCustomEnvelope c p none), a.Name.Local ≠ "xmlns:" ++ p) := by
  have hcfg : SetCustomEnvelope c p none = ⟨p, none⟩ := by
    unfold SetCustomEnvelope
    simp [h]
  rw [hcfg]
  refine ⟨rfl, rfl, fun m n => startHeader_eq _ m n, fun m => endHeader_eq _ m,
    fun m n pn hm hn => startBody_ok _ ts m n pn hm hn, fun m pn => endBody_eq _ ts m pn, ?_⟩
  intro h1 h2 h3 a ha
  have k1 : "xmlns:" ++ "soap" ≠ "xmlns:" ++ p :=
    append_ne_append _ _ _ (fun e => h1 e.symm)
  have k2 : "xmlns:" ++ "xsi" ≠ "xmlns:" ++ p :=
    append_ne_append _ _ _ (fun e => h2 e.symm)
  have k3 : "xmlns:" ++ "xsd" ≠ "xmlns:" ++ p :=
    append_ne_append _ _ _ (fun e => h3 e.symm)
  simp only [envelopeAttrs, List.mem_cons, List.mem_singleton, List.not_mem_nil,
    or_false] at ha
  rcases ha with rfl | rfl | rfl
  · exact k2
  · exact k3
  · exact k1

/-- C20, amended, at the prefix `env` from the initial configuration. -/
theorem default_envelope_attrs_witness :
    startEnvelope (SetCustomEnvelope Config.initial "env" none) [] =
        [Token.StartElement ⟨"", "env:Envelope"⟩
          [⟨⟨"", "xmlns:xsi"⟩, "http://www.w3.org/2001/XMLSchema-instance"⟩,
           ⟨⟨"", "xmlns:xsd"⟩, "http://www.w3.org/2001/XMLSchema"⟩,
           ⟨⟨"", "xmlns:soap"⟩, "http://schemas.xmlsoap.org/soap/envelope/"⟩]] ∧
      ∀ a ∈ envelopeAttrs (SetCustomEnvelope Config.initial "env" none),
        a.Name.Local ≠ "xmlns:" ++ "env" :=
  ⟨(default_envelope_attrs Config.initial "env" [] rfl).1.trans (by decide),
    (default_envelope_attrs Config.initial "env" [] rfl).2.2.2.2.2.2 (by decide) (by decide)
      (by decide)⟩

end Gosoap
